import Mathlib

/-!
Verification of core kernel components of a small x86_64 microkernel,
modelled as a shallow embedding of the Rust sources.  The first half of the
file embeds the data structures and operations the claims are about (time
arithmetic, the process table, the physical memory manager, the page-table
walker, address-space mappings, the ELF loader, the mprotect handler); the
second half states and proves (or refutes) the specification claims.
-/

set_option maxHeartbeats 1000000
set_option maxRecDepth 10000

namespace KernelModel

/-! # Definitions -/

/-! ## Time arithmetic (src/time.rs)

The `Time` struct stores seconds, minutes and hours as `u8` fields; all the
values the conversions below produce fit in a `u8`, so the fields are
modelled as `Nat`.  `Seconds` wraps a `usize`, modelled as `Nat`. -/

/-- Wall-clock time of day, mirroring `struct Time` in src/time.rs. -/
structure Time where
  seconds : Nat
  minutes : Nat
  hours : Nat
deriving DecidableEq, Repr

/-- The `MINUTE` constant of src/time.rs. -/
def MINUTE : Nat := 60

/-- The `HOUR` constant of src/time.rs. -/
def HOUR : Nat := 60 * MINUTE

/-- The conversion `impl Into<Seconds> for Time`. -/
def Time.toSeconds (t : Time) : Nat :=
  t.seconds + t.minutes * MINUTE + t.hours * HOUR

/-- The conversion `impl From<Seconds> for Time`: carries at 60 seconds,
60 minutes and 24 hours. -/
def Time.ofSeconds (s : Nat) : Time where
  seconds := s % 60
  minutes := (s / MINUTE) % 60
  hours := (s / HOUR) % 24

/-- The operator `impl Add<S> for Time`: convert both sides to seconds, add,
convert back. -/
def Time.add (t : Time) (s : Nat) : Time :=
  Time.ofSeconds (t.toSeconds + s)

/-! ## Ordered-map model

`BTreeMap<usize, V>` is modelled as an association list whose keys are
strictly increasing; iteration order of the model is the iteration order of
the tree.  `insert` returns the previous value for the key, `remove` the
removed value, as in the Rust standard library. -/

/-- Keys of an association list, in iteration order. -/
def mapKeys (m : List (Nat × v)) : List Nat := m.map Prod.fst

/-- Invariant of the `BTreeMap` model: keys strictly increasing. -/
def SortedMap (m : List (Nat × v)) : Prop := (mapKeys m).Pairwise (· < ·)

instance (m : List (Nat × v)) : Decidable (SortedMap m) :=
  inferInstanceAs (Decidable ((mapKeys m).Pairwise (· < ·)))

/-- Lookup, mirroring `BTreeMap::get`. -/
def mapGet (m : List (Nat × v)) (k : Nat) : Option v :=
  (m.find? (fun p => p.1 = k)).map Prod.snd

/-- Insertion, mirroring `BTreeMap::insert`: returns the map with the binding
added (replacing an equal key) and the previous value for the key. -/
def mapInsert : List (Nat × v) → Nat → v → List (Nat × v) × Option v
  | [], k, x => ([(k, x)], none)
  | (k', y) :: rest, k, x =>
    if k < k' then ((k, x) :: (k', y) :: rest, none)
    else if k = k' then ((k, x) :: rest, some y)
    else
      let r := mapInsert rest k x
      ((k', y) :: r.1, r.2)

/-- Removal, mirroring `BTreeMap::remove`: returns the map without the key
and the removed value. -/
def mapRemove : List (Nat × v) → Nat → List (Nat × v) × Option v
  | [], _ => ([], none)
  | (k', y) :: rest, k =>
    if k = k' then (rest, some y)
    else
      let r := mapRemove rest k
      ((k', y) :: r.1, r.2)

/-! ## Process table (src/proc.rs)

The process table is a `BTreeMap<usize, TaskHandle>`; tasks carry a pid, an
optional core affinity, a status and the open-files map.  `VirtualNode`
values are opaque to every claim below and are modelled by `Nat` tags. -/

/-- Wake condition of a blocked task. -/
inductive Wake where
  | time (t : Time)
deriving DecidableEq, Repr

/-- Task status, mirroring `enum Status` in src/proc.rs. -/
inductive Status where
  | dying
  | ready
  | running
  | blocked (w : Wake)
  | notRunnable
deriving DecidableEq, Repr

/-- Scheduler error type. -/
inductive SchedulerError where
  | procExists
deriving DecidableEq, Repr

/-- Filesystem error type (the variant used by `Task::close_file`). -/
inductive FsError where
  | badFd
deriving DecidableEq, Repr

instance {e a : Type u} [DecidableEq e] [DecidableEq a] : DecidableEq (Except e a) :=
  fun x y =>
    match x, y with
    | Except.ok u, Except.ok w =>
      if h : u = w then Decidable.isTrue (congrArg Except.ok h)
      else Decidable.isFalse (fun hc => h (Except.ok.inj hc))
    | Except.error u, Except.error w =>
      if h : u = w then Decidable.isTrue (congrArg Except.error h)
      else Decidable.isFalse (fun hc => h (Except.error.inj hc))
    | Except.ok _, Except.error _ => Decidable.isFalse (fun hc => Except.noConfusion hc)
    | Except.error _, Except.ok _ => Decidable.isFalse (fun hc => Except.noConfusion hc)

/-- Schedulable unit, keeping the fields of `struct Task` the claims are
about; a `VirtualNode` is an opaque `Nat` tag. -/
structure Task where
  id : Nat
  parent : Option Nat
  coreId : Option Nat
  entryPoint : Nat
  openFiles : List (Nat × Nat)
  status : Status
deriving DecidableEq, Repr

/-- The `Task::runnable` query: pid 0 is never runnable; otherwise the task
must be affine to the invoking core and `Ready`. -/
def Task.runnable (apicId : Nat) (t : Task) : Bool :=
  if t.id = 0 then false
  else ((t.coreId.map (fun c => decide (c = apicId))).getD false
        && decide (t.status = Status.ready))

/-- The `ProcessList::insert` operation: keyed by the task's own id, and it
reports `ProcExists` when the key was already bound. -/
def processListInsert (pl : List (Nat × Task)) (t : Task) :
    List (Nat × Task) × Except SchedulerError Unit :=
  let r := mapInsert pl t.id t
  (r.1, if r.2.isNone then Except.ok () else Except.error SchedulerError.procExists)

/-- The `ProcessList::get_next` selection: iterate the table over the keys
strictly above the current pid, then over the keys strictly below it, and
return the first runnable task. -/
def processListGetNext (pl : List (Nat × Task)) (currentId apicId : Nat) :
    Option Task :=
  let others := pl.filter (fun p => decide (currentId < p.1)) ++
    pl.filter (fun p => decide (p.1 < currentId))
  (others.find? (fun p => (p.2).runnable apicId)).map Prod.snd

/-- The open-files map a fresh task starts with (`Task::new` inserts the
null device at fds 0, 1 and 2); the tag 0 stands for the null device. -/
def taskNewOpenFiles : List (Nat × Nat) := [(0, 0), (1, 0), (2, 0)]

/-- The `Task::add_open_file` operation: reads the greatest key (0 when the
map is empty) and inserts the node one past it, returning the new fd. -/
def addOpenFile (files : List (Nat × Nat)) (node : Nat) :
    List (Nat × Nat) × Nat :=
  let fd := (files.getLast?.map Prod.fst).getD 0
  ((mapInsert files (fd + 1) node).1, fd + 1)

/-- The `Task::close_file` operation: removes the fd, reporting `BadFd` when
it was not open. -/
def closeFile (files : List (Nat × Nat)) (fd : Nat) :
    List (Nat × Nat) × Except FsError Unit :=
  let r := mapRemove files fd
  (r.1, if r.2.isSome then Except.ok () else Except.error FsError.badFd)

/-- Open-files key density: the keys are exactly `{0, …, n−1}` in order. -/
def DenseKeys (files : List (Nat × Nat)) : Prop :=
  mapKeys files = List.range files.length

instance (files : List (Nat × Nat)) : Decidable (DenseKeys files) :=
  inferInstanceAs (Decidable (mapKeys files = List.range files.length))

/-- Concrete pid-0 sentinel task used by witnesses. -/
def pid0Task : Task :=
  { id := 0, parent := none, coreId := none, entryPoint := 0,
    openFiles := [], status := Status.notRunnable }

/-- Concrete pid-7 task used by witnesses. -/
def oldT7 : Task :=
  { id := 7, parent := some 0, coreId := some 1, entryPoint := 64,
    openFiles := taskNewOpenFiles, status := Status.ready }

/-- Concrete pid-2 ready task on core 1 used by witnesses. -/
def readyT2 : Task :=
  { id := 2, parent := some 0, coreId := some 1, entryPoint := 32,
    openFiles := taskNewOpenFiles, status := Status.ready }

/-- Concrete replacement pid-7 task used by witnesses. -/
def newT7 : Task :=
  { id := 7, parent := some 0, coreId := some 2, entryPoint := 128,
    openFiles := taskNewOpenFiles, status := Status.running }

/-! ## Physical memory manager (src/mm/pmm.rs)

The PMM keeps a set of free `PhysicalRegion`s ordered by start address, a
separate set for low memory (regions starting below 0x10000), and a stack
of individual free frames (`FrameAllocator`); `request_frame` pops the
stack, refilling it from the first free region when empty.  The zeroing of
a returned frame is a write through the direct map and leaves the manager
state itself unchanged, so it does not appear in this state model. -/

/-- Page size of 4 KiB. -/
def PAGE_SIZE : Nat := 4096

/-- Region usage classification, mirroring `enum Usage` in src/mm/pmm.rs. -/
inductive Usage where
  | free
  | acpiReclaim
  | kernelHeap
  | kernelCode
  | kernelStack
  | misc
  | reserved
  | unusable
deriving DecidableEq, Repr

/-- Contiguous physical region, mirroring `struct PhysicalRegion`. -/
structure PhysicalRegion where
  start : Nat
  frames : Nat
  usage : Usage
deriving DecidableEq, Repr

/-- Exclusive end of a region (`PhysicalRegion::exclusive_end`). -/
def PhysicalRegion.exclusiveEnd (r : PhysicalRegion) : Nat :=
  r.start + r.frames * PAGE_SIZE

/-- Frame addresses of a region in increasing order (the order in which
`FrameAllocator::fill` pushes them). -/
def PhysicalRegion.frameList (r : PhysicalRegion) : List Nat :=
  (List.range r.frames).map (fun i => r.start + i * PAGE_SIZE)

/-- The `MemRegion::contains_val` helper. -/
def PhysicalRegion.containsVal (r : PhysicalRegion) (x : Nat) : Bool :=
  decide (r.start ≤ x) && decide (x < r.exclusiveEnd)

/-- The `MemRegion::within` helper. -/
def regionWithin (a b : PhysicalRegion) : Bool :=
  decide (b.start ≤ a.start) && decide (a.exclusiveEnd ≤ b.exclusiveEnd)

/-- The `MemRegion::contains` helper. -/
def regionContains (a b : PhysicalRegion) : Bool :=
  decide (a.start ≤ b.start) && decide (b.exclusiveEnd ≤ a.exclusiveEnd)

/-- The `MemRegion::overlaps` helper. -/
def regionOverlaps (a b : PhysicalRegion) : Bool :=
  let endOverhang := b.containsVal a.start && decide (b.exclusiveEnd < a.exclusiveEnd)
  let startOverhang := decide (a.start < b.start) && b.containsVal (a.exclusiveEnd - 1)
  startOverhang || endOverhang

/-- The condition under which `Ord for PhysicalRegion` compares two regions
`Equal`: any intersection. -/
def regionOrdEq (a b : PhysicalRegion) : Bool :=
  regionOverlaps a b || regionContains a b || regionWithin a b

/-- Insertion into the start-ordered `BTreeSet<PhysicalRegion>`: a region
comparing `Equal` (intersecting) to a present one is not inserted. -/
def regionInsert : List PhysicalRegion → PhysicalRegion → List PhysicalRegion
  | [], r => [r]
  | x :: xs, r =>
    if regionOrdEq r x then x :: xs
    else if r.start < x.start then r :: x :: xs
    else x :: regionInsert xs r

/-- The free-frame stack (`struct FrameAllocator`); the head of `frames` is
the top of the `Vec` stack. -/
structure FrameStack where
  frames : List Nat
deriving DecidableEq, Repr

/-- The `FrameAllocator::fill` operation: push every frame of the region in
increasing address order. -/
def FrameStack.fill (s : FrameStack) (r : PhysicalRegion) : FrameStack :=
  { frames := r.frameList.foldl (fun acc f => f :: acc) s.frames }

/-- The `FrameAllocator::allocate` operation: pop the stack. -/
def FrameStack.allocate (s : FrameStack) : Option (Nat × FrameStack) :=
  match s.frames with
  | [] => none
  | f :: rest => some (f, { frames := rest })

/-- The `FrameAllocator::free` operation: push. -/
def FrameStack.free (s : FrameStack) (p : Nat) : FrameStack :=
  { frames := p :: s.frames }

/-- The `PhysicalMemoryManager` state. -/
structure PhysicalMemoryManager where
  physOffset : Nat
  heapStartPhys : Nat
  heapEndPhys : Nat
  freeRegions : List PhysicalRegion
  freeLowMemory : List PhysicalRegion
  unusable : List PhysicalRegion
  frames : FrameStack
deriving DecidableEq, Repr

/-- The `fill_frame_allocator` operation: pop the first free region into the
frame stack; an `AcpiReclaim` first region is put back and the next region
is used instead.  `none` models the `expect` panic on an empty region set. -/
def fillFrameAllocator (s : PhysicalMemoryManager) :
    Option PhysicalMemoryManager :=
  match s.freeRegions with
  | [] => none
  | entry :: rest =>
    if entry.usage ≠ Usage.acpiReclaim then
      some { s with freeRegions := rest, frames := s.frames.fill entry }
    else
      match rest with
      | [] => none
      | newEntry :: rest2 =>
        let newRegions := regionInsert rest2 entry
        some { s with freeRegions := newRegions, frames := s.frames.fill newEntry }

/-- The `PhysicalMemoryManager::request_frame` operation (also the
`allocate_frame` of its `FrameAllocator` impl): pop the stack, refilling it
from the region set when empty; `none` models the panics on exhaustion. -/
def pmmRequestFrame (s : PhysicalMemoryManager) :
    Option (Nat × PhysicalMemoryManager) :=
  match s.frames.allocate with
  | some (f, st) => some (f, { s with frames := st })
  | none =>
    match fillFrameAllocator s with
    | none => none
    | some s2 =>
      match s2.frames.allocate with
      | none => none
      | some (f, st) => some (f, { s2 with frames := st })

/-- The `PhysicalMemoryManager::release_frame` operation (also its
`deallocate_frame`): push the frame onto the stack, unchecked. -/
def pmmReleaseFrame (s : PhysicalMemoryManager) (p : Nat) :
    PhysicalMemoryManager :=
  { s with frames := s.frames.free p }

/-- Every frame the generic allocation path can draw from: the stack plus
the free regions (low memory is only reachable through
`request_low_memory`, never through `request_frame`). -/
def pmmFreeFrameList (s : PhysicalMemoryManager) : List Nat :=
  s.frames.frames ++ (s.freeRegions.map PhysicalRegion.frameList).flatten

/-- Pairwise non-intersection of the free-region set, the `BTreeSet`
well-formedness the PMM maintains (two intersecting regions would compare
`Equal` and could never coexist in the set). -/
def RegsOk (l : List PhysicalRegion) : Prop :=
  l.Pairwise (fun a b => regionOrdEq a b = false ∧ regionOrdEq b a = false)

instance (l : List PhysicalRegion) : Decidable (RegsOk l) :=
  inferInstanceAs (Decidable (l.Pairwise _))

/-- State of `twoFramePmm` after its first allocation. -/
def twoFramePmmAfter1 : PhysicalMemoryManager :=
  { physOffset := 0, heapStartPhys := 0x200000, heapEndPhys := 0x400000,
    freeRegions := [], freeLowMemory := [], unusable := [],
    frames := { frames := [0x2000] } }

/-- Physical address of the AP trampoline page
(`TRAMPOLINE_LOAD_ADDRESS`). -/
def TRAMPOLINE_ADDR : Nat := 0x8000

/-- Concrete PMM state for the counterexample: the stack and region set as
they stand once SMP bring-up has finished, just before the trampoline frame
is released (one ordinary free frame on the stack, no regions left). -/
def afterSmpPmm : PhysicalMemoryManager :=
  { physOffset := 0, heapStartPhys := 0x200000, heapEndPhys := 0x400000,
    freeRegions := [], freeLowMemory := [], unusable := [],
    frames := { frames := [0x9000] } }

/-- Concrete PMM state for the witness of the amended claim: two distinct
non-trampoline frames on the stack. -/
def twoFramePmm : PhysicalMemoryManager :=
  { physOffset := 0, heapStartPhys := 0x200000, heapEndPhys := 0x400000,
    freeRegions := [], freeLowMemory := [], unusable := [],
    frames := { frames := [0x1000, 0x2000] } }

/-! ## Page tables (src/arch/x86_64/paging.rs)

Physical memory is modelled as a total map from frame address to table
content; a table is a map from entry index (0..511) to `PTEntry`.  The
direct map `phys_to_virt` is the identity of the model: a pointer to a
table is its physical frame address. -/

/-- Page-table entry: either unused (the all-zero entry) or an address plus
the flags the kernel manipulates (Present, Writable, HugePage,
UserAccessible). -/
inductive PTEntry where
  | unused
  | entry (addr : Nat) (present writable huge user : Bool)
deriving DecidableEq, Repr

/-- The `is_unused()` test (entry equals zero). -/
def PTEntry.isUnused : PTEntry → Bool
  | .unused => true
  | .entry _ _ _ _ _ => false

/-- The `addr()` accessor; the zero entry reports address 0. -/
def PTEntry.addr : PTEntry → Nat
  | .unused => 0
  | .entry a _ _ _ _ => a

/-- The Present flag of the entry. -/
def PTEntry.present : PTEntry → Bool
  | .unused => false
  | .entry _ p _ _ _ => p

/-- The Writable flag of the entry. -/
def PTEntry.writable : PTEntry → Bool
  | .unused => false
  | .entry _ _ w _ _ => w

/-- The HugePage flag of the entry. -/
def PTEntry.huge : PTEntry → Bool
  | .unused => false
  | .entry _ _ _ h _ => h

/-- The UserAccessible flag of the entry. -/
def PTEntry.user : PTEntry → Bool
  | .unused => false
  | .entry _ _ _ _ u => u

/-- Physical memory seen as page tables through the direct map. -/
def Memory : Type := Nat → Nat → PTEntry

/-- Write one entry of one table. -/
def writeEntryAt (mem : Memory) (t i : Nat) (e : PTEntry) : Memory :=
  Function.update mem t (Function.update (mem t) i e)

/-- A freshly zeroed page table: every entry unused. -/
def emptyTable : Nat → PTEntry := fun _ => PTEntry.unused

/-- The page-table walk errors (`enum MapError`). -/
inductive MapError where
  | bottomLevel
  | topLevel
  | hugeFrame (level : Nat)
  | notPresent
  | presentEntry
deriving DecidableEq, Repr

/-- The four per-level indices of a virtual address, highest level first
(`[p4_index, p3_index, p2_index, p1_index]`). -/
def vaddrIndices (va : Nat) : List Nat :=
  [va / 2 ^ 39 % 512, va / 2 ^ 30 % 512, va / 2 ^ 21 % 512, va / 2 ^ 12 % 512]

/-- The page-table walker state (`struct Mapper`). -/
structure Mapper where
  addr : Nat
  indices : List Nat
  currentLevel : Nat
  currentPtr : Nat
  prevPtrs : List Nat
deriving DecidableEq, Repr

/-- The `Mapper::new` constructor: level 4 at the provided root table. -/
def Mapper.new (va : Nat) (root : Nat) : Mapper :=
  { addr := va, indices := vaddrIndices va, currentLevel := 4,
    currentPtr := root, prevPtrs := [] }

/-- The `next_index` accessor: `indices[4 - current_level]`. -/
def Mapper.nextIndex (m : Mapper) : Nat := m.indices.getD (4 - m.currentLevel) 0

/-- The entry the walker would descend into (`next_entry`). -/
def Mapper.nextEntry (mem : Memory) (m : Mapper) : PTEntry :=
  mem m.currentPtr m.nextIndex

/-- The `advance()` operation: fail with `BottomLevel` at level 1, with
`NotPresent` on an unused entry, with `HugeFrame(level)` on a present huge
entry, otherwise descend one level. -/
def Mapper.advance (mem : Memory) (m : Mapper) : Except MapError Mapper :=
  if m.currentLevel = 1 then Except.error MapError.bottomLevel
  else
    let e := m.nextEntry mem
    if e.isUnused then Except.error MapError.notPresent
    else if e.huge && e.present then
      Except.error (MapError.hugeFrame m.currentLevel)
    else Except.ok { m with
      prevPtrs := m.currentPtr :: m.prevPtrs,
      currentPtr := e.addr,
      currentLevel := m.currentLevel - 1 }

/-- The `ascend()` operation: pop one previous table, `TopLevel` when none. -/
def Mapper.ascendOp (m : Mapper) : Except MapError Mapper :=
  match m.prevPtrs with
  | [] => Except.error MapError.topLevel
  | p :: rest => Except.ok { m with
      currentPtr := p,
      prevPtrs := rest,
      currentLevel := m.currentLevel + 1 }

/-- Concrete one-page memory for the C5 witness: a root at 100 pointing to
tables 200, 300 and 400 with a leaf frame 0x5000 for virtual address 0. -/
def c5Mem : Memory := fun a i =>
  if a = 100 ∧ i = 0 then PTEntry.entry 200 true true false false
  else if a = 200 ∧ i = 0 then PTEntry.entry 300 true true false false
  else if a = 300 ∧ i = 0 then PTEntry.entry 400 true true false false
  else if a = 400 ∧ i = 0 then PTEntry.entry 0x5000 true true false false
  else PTEntry.unused

/-! ## Page-table deep copy (PageTableOps::deep_copy)

The PMM hands `allocate_page_table` a stream of zeroed frames; the model
takes that stream as a function `F` from allocation counter to frame
address.  `deep_copy` recursively clones the table structure: level-1
entries and the level-4 entries above index 509 are copied verbatim, every
other used entry is replaced by a pointer to a recursive copy carrying the
original flags. -/

/-- The resolution of a virtual address through the table structure,
following `Mapper::get_phys_frame`: descend until `BottomLevel` or
`HugeFrame` and report the entry`s address and huge flag; an unused entry
above level 1 resolves to `none`. -/
def resolveFrom (mem : Memory) : Nat → Nat → List Nat → Option (Nat × Bool)
  | 0, _, _ => none
  | 1, t, idxs =>
    let e := mem t (idxs.getD 3 0)
    some (e.addr, e.huge)
  | (l + 2), t, idxs =>
    let e := mem t (idxs.getD (4 - (l + 2)) 0)
    if e.isUnused then none
    else if e.huge && e.present then some (e.addr, e.huge)
    else resolveFrom mem (l + 1) e.addr idxs

/-- All table frames reachable from a table at the given level (the tables
themselves, not the leaf data frames). -/
def tableAddrs (mem : Memory) : Nat → Nat → List Nat
  | 0, t => [t]
  | 1, t => [t]
  | (l + 2), t =>
    t :: (List.range 512).flatMap (fun i =>
      if (mem t i).isUnused then [] else tableAddrs mem (l + 1) (mem t i).addr)

/-- Absence of huge-page leaves: every used entry above level 1 is a plain
table pointer (not huge-and-present) and its subtree is huge-free too. -/
def NoHugeTree (mem : Memory) : Nat → Nat → Prop
  | 0, _ => True
  | 1, _ => True
  | (l + 2), t => ∀ i, i < 512 → (mem t i).isUnused = false →
      ((mem t i).huge && (mem t i).present) = false ∧
      NoHugeTree mem (l + 1) (mem t i).addr

/-- One step of the `deep_copy_inner` entry loop, iterating the indices of
the source table `t` and building the copy at `newAddr`; `childCopy` is the
recursive copy at the next level down. -/
def copyGo (F : Nat → Nat)
    (childCopy : Nat → Memory → Nat → Nat × Memory × Nat)
    (level : Nat) (t newAddr : Nat) :
    List Nat → Memory → Nat → Memory × Nat
  | [], m, n => (m, n)
  | i :: is, m, n =>
    let e := m t i
    if e.isUnused then copyGo F childCopy level t newAddr is m n
    else if level = 4 ∧ i > 509 then
      copyGo F childCopy level t newAddr is (writeEntryAt m newAddr i e) n
    else if level = 1 then
      copyGo F childCopy level t newAddr is (writeEntryAt m newAddr i e) n
    else
      let r := childCopy e.addr m n
      copyGo F childCopy level t newAddr is
        (writeEntryAt r.2.1 newAddr i
          (PTEntry.entry r.1 e.present e.writable e.huge e.user)) r.2.2

/-- The recursive `deep_copy_inner`: allocate a zeroed table from the
stream, then copy the 512 entries. -/
def deepCopyInner (F : Nat → Nat) : Nat → Nat → Memory → Nat → Nat × Memory × Nat
  | 0, _, m, n => (0, m, n)
  | (l + 1), t, m, n =>
    let newAddr := F n
    let m0 := Function.update m newAddr emptyTable
    let r := copyGo F (fun t2 m2 n2 => deepCopyInner F l t2 m2 n2) (l + 1) t
      newAddr (List.range 512) m0 (n + 1)
    (newAddr, r.1, r.2)

/-- The `deep_copy` entry point on a level-4 table. -/
def deepCopy (F : Nat → Nat) (mem : Memory) (root : Nat) (n : Nat) :
    Nat × Memory × Nat :=
  deepCopyInner F 4 root mem n

/-- The entry loop with the recursive copy instantiated one level down;
`deepCopyInner` at level `l + 1` runs exactly this loop. -/
def copyGoRun (F : Nat → Nat) (level t newAddr : Nat)
    (is : List Nat) (m : Memory) (n : Nat) : Memory × Nat :=
  copyGo F (fun t2 m2 n2 => deepCopyInner F (level - 1) t2 m2 n2)
    level t newAddr is m n

/-- Decidability of `NoHugeTree`, by recursion on the level. -/
instance noHugeTreeDec (mem : Memory) : ∀ level t, Decidable (NoHugeTree mem level t)
  | 0, _ => Decidable.isTrue trivial
  | 1, _ => Decidable.isTrue trivial
  | (l + 2), t =>
    haveI : ∀ a, Decidable (NoHugeTree mem (l + 1) a) :=
      fun a => noHugeTreeDec mem (l + 1) a
    decidable_of_iff (∀ i, i < 512 → (mem t i).isUnused = false →
      ((mem t i).huge && (mem t i).present) = false ∧
      NoHugeTree mem (l + 1) (mem t i).addr) Iff.rfl

/-- Per-entry description of what the deep-copy loop wrote into the copy
at `newAddr`, relative to the source table `t` in the pristine memory
`mem`; fresh frames are drawn from `F` over the counter range `[n1, n2)`. -/
def EntrySpec (F : Nat → Nat) (mem mem' : Memory) (level t newAddr : Nat)
    (n1 n2 : Nat) (i : Nat) : Prop :=
  ((mem t i).isUnused = true ∧ mem' newAddr i = PTEntry.unused)
  ∨ ((mem t i).isUnused = false ∧ ((level = 4 ∧ i > 509) ∨ level = 1) ∧
     mem' newAddr i = mem t i)
  ∨ ((mem t i).isUnused = false ∧ ¬(level = 4 ∧ i > 509) ∧ level ≠ 1 ∧
     ∃ k, n1 ≤ k ∧ k < n2 ∧
       mem' newAddr i = PTEntry.entry (F k) (mem t i).present
         (mem t i).writable (mem t i).huge (mem t i).user ∧
       (∀ mem2,
         (∀ y, y ∈ tableAddrs mem (level - 1) (mem t i).addr → mem2 y = mem y) →
         (∀ k2, n1 ≤ k2 → k2 < n2 → mem2 (F k2) = mem' (F k2)) →
         ∀ idxs, (∀ j ∈ idxs, j < 512) →
           resolveFrom mem2 (level - 1) (F k) idxs =
             resolveFrom mem (level - 1) (mem t i).addr idxs))

/-- Induction package for `deepCopyInner` at one level: the copy root is
the next fresh frame, memory changes only at fresh frames, and resolution
through the copy matches the source, stably under later writes away from
the copy and the source tree. -/
def CopySpec (F : Nat → Nat) (level : Nat) : Prop :=
  ∀ t mem n,
    NoHugeTree mem level t →
    (∀ k, n ≤ k → F k ∉ tableAddrs mem level t) →
    (deepCopyInner F level t mem n).1 = F n ∧
    n < (deepCopyInner F level t mem n).2.2 ∧
    (∀ x, (∀ k, n ≤ k → k < (deepCopyInner F level t mem n).2.2 → x ≠ F k) →
      (deepCopyInner F level t mem n).2.1 x = mem x) ∧
    (∀ mem2,
      (∀ y, y ∈ tableAddrs mem level t → mem2 y = mem y) →
      (∀ k, n ≤ k → k < (deepCopyInner F level t mem n).2.2 →
        mem2 (F k) = (deepCopyInner F level t mem n).2.1 (F k)) →
      ∀ idxs, (∀ j ∈ idxs, j < 512) →
        resolveFrom mem2 level (F n) idxs = resolveFrom mem level t idxs)

/-- Fresh-frame stream used by the C4 witness. -/
def c4F (k : Nat) : Nat := 0x10000 + k * 0x1000

/-- Memory whose root table holds a huge present leaf at index 0: the
source resolves that address directly to frame 0x200000. -/
def c4HugeMem : Memory := fun a i =>
  if a = 100 ∧ i = 0 then PTEntry.entry 0x200000 true true true false
  else PTEntry.unused

/-! ## Mappings and unmap (src/mm/mapping.rs, src/mm/vmm.rs)

`Mapping::unmap` walks each page of the region, `Mapper::unmap` clears the
leaf entry (freeing emptied intermediate tables when `cleanup` is set), and
the mapping kind decides whether the leaf frame goes back to the PMM.
`release_region` and `remove_all` both gate the unmap behind
`Arc::try_unwrap`, which succeeds only when the caller holds the sole
reference to the mapping; `rc` below is the number of address spaces
holding the `Arc`. -/

/-- `enum MappingType`. -/
inductive MappingType where
  | kernelCode
  | kernelData
  | mmio (base : Nat)
  | identity (base : Nat)
  | empty
deriving DecidableEq, Repr

/-- The `Attributes` bitflags. -/
def ATTR_NEEDS_UNMAP : Nat := 0x80

def ATTR_READ : Nat := 0x1

def ATTR_WRITE : Nat := 0x2

def ATTR_EXECUTABLE : Nat := 0x4

def ATTR_HUGE : Nat := 0x40

def ATTR_COW : Nat := 0x20

def HUGE_PAGE_SIZE : Nat := 0x200000

/-- `struct Mapping`: a virtual region (start address plus page count), the
kind and the attribute bits. -/
structure Mapping where
  start : Nat
  sizePages : Nat
  kind : MappingType
  attr : Nat
deriving DecidableEq, Repr

/-- `is_huge()`: the HUGE attribute bit. -/
def Mapping.isHuge (m : Mapping) : Bool := m.attr &&& ATTR_HUGE != 0

/-- `VirtualRegion::pages()`: each page-aligned address of the region. -/
def Mapping.pages (m : Mapping) : List Nat :=
  (List.range m.sizePages).map (fun k => m.start + k * PAGE_SIZE)

/-- `VirtualRegion::huge_pages()`: the same byte range stepped by 2 MiB. -/
def Mapping.hugePages (m : Mapping) : List Nat :=
  (List.range ((m.sizePages * PAGE_SIZE + (HUGE_PAGE_SIZE - 1)) /
    HUGE_PAGE_SIZE)).map (fun k => m.start + k * HUGE_PAGE_SIZE)

/-- The page list `Mapping::unmap` iterates. -/
def Mapping.pageList (m : Mapping) : List Nat :=
  if m.isHuge then m.hugePages else m.pages

/-- `Mapper::unmap_next`: clear the entry the walker points at and return
its frame; `NotPresent` when the entry is unused. -/
def Mapper.unmapNext (mem : Memory) (m : Mapper) : Except MapError (Nat × Memory) :=
  if (m.nextEntry mem).isUnused then Except.error MapError.notPresent
  else Except.ok ((m.nextEntry mem).addr,
    writeEntryAt mem m.currentPtr m.nextIndex PTEntry.unused)

/-- The walk loop at the head of `Mapper::unmap`: advance until
`BottomLevel` or `HugeFrame` (success), propagate anything else as
`NotPresent`.  From level 4 at most four iterations can run, so fuel 4 is
exact. -/
def unmapWalk (mem : Memory) : Nat → Mapper → Except MapError Mapper
  | 0, _ => Except.error MapError.notPresent
  | fuel + 1, m =>
    match m.advance mem with
    | Except.error MapError.bottomLevel => Except.ok m
    | Except.error (MapError.hugeFrame _) => Except.ok m
    | Except.ok m2 => unmapWalk mem fuel m2
    | Except.error _ => Except.error MapError.notPresent

/-- `current_is_empty`: fold of `is_unused` over the current table. -/
def currentIsEmpty (mem : Memory) (m : Mapper) : Bool :=
  (List.range 512).foldl (fun acc i => acc && (mem m.currentPtr i).isUnused) true

/-- The cleanup loop of `Mapper::unmap`: while the current table is empty,
ascend (stopping at the top) and free the frame of the parent entry that
pointed here.  Each running iteration pops `prev_ptrs`, so fuel
`prev_ptrs.length + 1` is exact. -/
def cleanupLoop (mem : Memory) (pmm : PhysicalMemoryManager) :
    Nat → Mapper → Except MapError (Memory × PhysicalMemoryManager × Mapper)
  | 0, m => Except.ok (mem, pmm, m)
  | fuel + 1, m =>
    if currentIsEmpty mem m then
      match m.ascendOp with
      | Except.error _ => Except.ok (mem, pmm, m)
      | Except.ok m2 =>
        match m2.unmapNext mem with
        | Except.error e => Except.error e
        | Except.ok (f, mem2) => cleanupLoop mem2 (pmmReleaseFrame pmm f) fuel m2
    else Except.ok (mem, pmm, m)

/-- `Mapper::unmap`: walk to the bottom, clear the leaf entry, then the
cleanup loop; returns the leaf frame. -/
def mapperUnmap (mem : Memory) (pmm : PhysicalMemoryManager)
    (va root : Nat) (cleanup : Bool) :
    Except MapError (Nat × Memory × PhysicalMemoryManager) :=
  match unmapWalk mem 4 (Mapper.new va root) with
  | Except.error e => Except.error e
  | Except.ok m =>
    match m.unmapNext mem with
    | Except.error e => Except.error e
    | Except.ok (f, mem2) =>
      if cleanup then
        match cleanupLoop mem2 pmm (m.prevPtrs.length + 1) m with
        | Except.error e => Except.error e
        | Except.ok (mem3, pmm3, _) => Except.ok (f, mem3, pmm3)
      else Except.ok (f, mem2, pmm)

/-- The per-page loop of `Mapping::unmap`: unmap each page (`unwrap`
panics on error, modelled as `none`), then dispatch on the kind: MMIO
frames are skipped, KernelData and Identity frames go back to the PMM,
anything else hits the `panic!`. -/
def mappingUnmapGo (kind : MappingType) (root : Nat) :
    List Nat → Memory → PhysicalMemoryManager →
    Option (Memory × PhysicalMemoryManager)
  | [], mem, pmm => some (mem, pmm)
  | p :: ps, mem, pmm =>
    match mapperUnmap mem pmm p root true with
    | Except.error _ => none
    | Except.ok (f, mem2, pmm2) =>
      match kind with
      | MappingType.mmio _ => mappingUnmapGo kind root ps mem2 pmm2
      | MappingType.kernelData =>
        mappingUnmapGo kind root ps mem2 (pmmReleaseFrame pmm2 f)
      | MappingType.identity _ =>
        mappingUnmapGo kind root ps mem2 (pmmReleaseFrame pmm2 f)
      | _ => none

/-- `Mapping::unmap` over the whole region. -/
def mappingUnmap (m : Mapping) (root : Nat) (mem : Memory)
    (pmm : PhysicalMemoryManager) : Option (Memory × PhysicalMemoryManager) :=
  mappingUnmapGo m.kind root m.pageList mem pmm

/-- The unmap path shared by `release_region` and `remove_all` after the
mapping is taken out of the set: `Arc::try_unwrap` succeeds only for a
sole reference (`rc = 1`) and then the mapping is unmapped; otherwise the
reference is merely dropped and no frame moves. -/
def releaseMapping (rc : Nat) (m : Mapping) (root : Nat) (mem : Memory)
    (pmm : PhysicalMemoryManager) : Option (Memory × PhysicalMemoryManager) :=
  if rc = 1 then mappingUnmap m root mem pmm
  else some (mem, pmm)

/-- The walker invariant down a translation path: each previous table's
entry (at the index for its level) is used and points at the table below
it. -/
def chainOk (mem : Memory) (idxs : List Nat) : Nat → Nat → List Nat → Prop
  | _, _, [] => True
  | lvl, c, p :: rest =>
    (mem p (idxs.getD (4 - (lvl + 1)) 0)).isUnused = false ∧
    (mem p (idxs.getD (4 - (lvl + 1)) 0)).addr = c ∧
    chainOk mem idxs (lvl + 1) p rest

/-- Concrete single-page KernelCode mapping for the C2 counterexample. -/
def c2KcMapping : Mapping :=
  { start := 0, sizePages := 1, kind := MappingType.kernelCode,
    attr := ATTR_NEEDS_UNMAP }

/-- Concrete single-page KernelData mapping for the C2 witness. -/
def c2KdMapping : Mapping :=
  { start := 0, sizePages := 1, kind := MappingType.kernelData,
    attr := ATTR_NEEDS_UNMAP }

/-! ## ELF loading (src/elf.rs)

`load_elf` iterates the Load program headers.  For each one it computes a
page count, maps the range, then writes bytes through the direct pointer:
`virt_offset` is always `addr - addr = 0` and `f_end = f_offset +
mem_size`, so both copy branches move `mem_size` bytes (with panics on
out-of-range slicing), and the padding loop writes `file_size` zero bytes
starting right after the copied region, only on the null-pointer branch
(on the other branch `mem_size > file_size` has already panicked). -/

/-- The fields of a Load program header that the loader reads. -/
structure ProgHeader where
  vaddr : Nat
  memSize : Nat
  fileSize : Nat
  offset : Nat
deriving DecidableEq, Repr

/-- `crosses_page_boundary`: 1 when the header straddles a page. -/
def crossesPageBoundary (h : ProgHeader) : Nat :=
  if h.vaddr / PAGE_SIZE < (h.vaddr + h.memSize) / PAGE_SIZE then 1 else 0

/-- `pages = ((mem_size + (PAGE_SIZE - 1)) / PAGE_SIZE) +
crosses_page_boundary`. -/
def elfPages (h : ProgHeader) : Nat :=
  (h.memSize + (PAGE_SIZE - 1)) / PAGE_SIZE + crossesPageBoundary h

/-- The byte writes of one Load header, in program order, as
(address, byte) pairs; `none` models the slice-indexing panics.  The
null-pointer branch copies `data[f_offset..f_offset+mem_size]` byte by
byte and then writes `file_size` zeros after them; the other branch
re-slices the destination with length `file_size`, so indexing it with
`0..mem_size` panics when `mem_size > file_size`, and otherwise copies
`mem_size` bytes with no padding (the padding guard `mem_size > file_size`
cannot hold). -/
def loadSegmentWrites (h : ProgHeader) (data : List Nat) :
    Option (List (Nat × Nat)) :=
  let f_end := h.offset + h.memSize
  if h.vaddr = 0 then
    if data.length < f_end then none
    else
      let copy := (List.range h.memSize).map
        (fun k => (h.vaddr + k, data.getD (h.offset + k) 0))
      if h.memSize > h.fileSize then
        some (copy ++ (List.range h.fileSize).map
          (fun k => (h.vaddr + h.memSize + k, 0)))
      else some copy
  else
    if h.memSize > h.fileSize then none
    else if data.length < f_end then none
    else some ((List.range h.memSize).map
      (fun k => (h.vaddr + k, data.getD (h.offset + k) 0)))

/-! ## mprotect (src/syscall/handlers.rs, src/mm/mapping.rs)

`mprotect` looks up the mapping containing the address, rejects a page
count that differs from the mapping's, decodes the protection from the low
three flag bits and flips the mapping's attributes.  The model tracks the
mapping set and its attribute bits; the accompanying leaf flag walks
(`set_flags` / `clear_flags`) touch only page-table entries, which the
claim does not mention.  `Mapping::executable` ends in `todo!("NX bit")`,
a panic, modelled as `none`. -/

/-- The syscall errors mprotect can produce. -/
inductive SyscallErr where
  | noMem
  | invalidFlags
deriving DecidableEq, Repr

/-- `enum Protection` of the mprotect handler. -/
inductive Protection where
  | readOnly
  | readWrite
  | executable
deriving DecidableEq, Repr

/-- `Attributes::EX = EXECUTABLE | READ`. -/
def ATTR_EX : Nat := ATTR_EXECUTABLE ||| ATTR_READ

/-- `Attributes::RW = READ | WRITE`. -/
def ATTR_RW : Nat := ATTR_READ ||| ATTR_WRITE

/-- `Protection::try_from`: mask the low three bits; 5 is executable, 3 is
read-write, 1 is read-only, anything else is `InvalidFlags`. -/
def protectionTryFrom (flags : Nat) : Except SyscallErr Protection :=
  match flags &&& 0b111 with
  | 5 => Except.ok Protection.executable
  | 3 => Except.ok Protection.readWrite
  | 1 => Except.ok Protection.readOnly
  | _ => Except.error SyscallErr.invalidFlags

/-- `bitflags` `remove`: clear the given bits (u8 universe). -/
def attrRemove (a b : Nat) : Nat := a &&& (0xFF ^^^ b)

/-- `bitflags` `insert`: set the given bits. -/
def attrInsert (a b : Nat) : Nat := a ||| b

/-- `Mapping::read_only`: `remove(EX | WRITE)` then `set(READ)`. -/
def Mapping.readOnly (m : Mapping) : Mapping :=
  { m with attr := attrInsert (attrRemove m.attr (ATTR_EX ||| ATTR_WRITE)) ATTR_READ }

/-- `Mapping::read_write`: `remove(EX)` then `set(READ | WRITE)`. -/
def Mapping.readWrite (m : Mapping) : Mapping :=
  { m with attr := attrInsert (attrRemove m.attr ATTR_EX) ATTR_RW }

/-- `bitflags` `contains` for a single-bit flag. -/
def Mapping.hasAttr (m : Mapping) (b : Nat) : Bool := m.attr &&& b != 0

/-- Interval intersection of two regions given as start plus page count
(the overlap/contains/within test that makes `VirtualRegion`s compare
`Equal`). -/
def vrIntersects (s1 n1 s2 n2 : Nat) : Bool :=
  decide (s1 < s2 + n2 * PAGE_SIZE) && decide (s2 < s1 + n1 * PAGE_SIZE)

/-- `mapping_containing`: `BTreeSet::get` probed with the one-page region
at the address; the element whose region intersects the probe. -/
def mappingContaining (ms : List Mapping) (addr : Nat) : Option Mapping :=
  ms.find? (fun m => vrIntersects m.start m.sizePages addr 1)

/-- The in-place attribute mutation seen as a set update. -/
def replaceMapping (ms : List Mapping) (old upd : Mapping) : List Mapping :=
  ms.map (fun x => if x = old then upd else x)

/-- The `mprotect` handler: mapping lookup (`NoMem` when absent), exact
page-count check (`NoMem` on mismatch, before any mutation), protection
decode, then the attribute flip; the executable path panics in
`todo!("NX bit")`. -/
def mprotect (ms : List Mapping) (addr pages flags : Nat) :
    Option (List Mapping × Except SyscallErr Unit) :=
  match mappingContaining ms addr with
  | none => some (ms, Except.error SyscallErr.noMem)
  | some m =>
    if m.sizePages ≠ pages then some (ms, Except.error SyscallErr.noMem)
    else
      match protectionTryFrom flags with
      | Except.error e => some (ms, Except.error e)
      | Except.ok Protection.executable => none
      | Except.ok Protection.readWrite =>
        some (replaceMapping ms m m.readWrite, Except.ok ())
      | Except.ok Protection.readOnly =>
        some (replaceMapping ms m m.readOnly, Except.ok ())

/-- Concrete read-write user mapping for the C7 witness. -/
def c7m : Mapping :=
  { start := 0x2000, sizePages := 2, kind := MappingType.kernelData,
    attr := ATTR_NEEDS_UNMAP ||| ATTR_RW }

/-! # Theorems -/

/-! ## C10: time arithmetic -/

/-- C10: for a `Time` whose fields are in range, converting to `Seconds` and
back is the identity, and `Time + Seconds(s)` is exactly the `Time` built
from the total second count with carries at 60 seconds, 60 minutes and
24 hours. -/
theorem time_roundtrip_and_add (t : Time) (hs : t.seconds < 60)
    (hm : t.minutes < 60) (hh : t.hours < 24) :
    Time.ofSeconds t.toSeconds = t ∧
    ∀ s : Nat, t.add s = Time.ofSeconds (t.toSeconds + s) := by
  constructor
  · cases t with
    | mk sec min hr =>
      simp only [Time.ofSeconds, Time.toSeconds, MINUTE, HOUR]
      simp only at hs hm hh
      simp only [Time.mk.injEq]
      exact ⟨by omega, by omega, by omega⟩
  · intro s
    rfl

/-- Witness for C10 at a concrete in-range time. -/
theorem time_roundtrip_and_add_witness :
    Time.ofSeconds (Time.toSeconds ⟨55, 59, 0⟩) = (⟨55, 59, 0⟩ : Time) ∧
    Time.add ⟨55, 59, 0⟩ 6 = Time.ofSeconds (Time.toSeconds ⟨55, 59, 0⟩ + 6) := by
  have h := time_roundtrip_and_add ⟨55, 59, 0⟩ (by decide) (by decide) (by decide)
  exact ⟨h.1, h.2 6⟩

/-! ## Map lemmas -/

theorem mapGet_cons_ne {k' : Nat} {y : v} {rest : List (Nat × v)} {k : Nat}
    (h : k' ≠ k) : mapGet ((k', y) :: rest) k = mapGet rest k := by
  simp [mapGet, List.find?_cons, h]

theorem mapGet_cons_self {k : Nat} {y : v} {rest : List (Nat × v)} :
    mapGet ((k, y) :: rest) k = some y := by
  simp [mapGet, List.find?_cons]

theorem mapGet_eq_none_of_forall_lt (m : List (Nat × v)) (k : Nat)
    (h : ∀ p ∈ m, k < p.1) : mapGet m k = none := by
  induction m with
  | nil => rfl
  | cons p rest ih =>
    obtain ⟨k', y⟩ := p
    have hp := h (k', y) (List.mem_cons_self _ rest)
    rw [mapGet_cons_ne (by simp only at hp; omega)]
    exact ih (fun q hq => h q (List.mem_cons_of_mem _ hq))

theorem sortedMap_tail {p : Nat × v} {rest : List (Nat × v)}
    (hs : SortedMap (p :: rest)) :
    SortedMap rest ∧ ∀ q ∈ rest, p.1 < q.1 := by
  simp only [SortedMap, mapKeys, List.map_cons, List.pairwise_cons] at hs
  refine ⟨hs.2, fun q hq => hs.1 q.1 ?_⟩
  exact List.mem_map_of_mem Prod.fst hq

theorem mapInsert_snd_eq_get (m : List (Nat × v)) (hs : SortedMap m)
    (k : Nat) (x : v) : (mapInsert m k x).2 = mapGet m k := by
  induction m with
  | nil => rfl
  | cons p rest ih =>
    obtain ⟨k', y⟩ := p
    obtain ⟨hrest, hgt⟩ := sortedMap_tail hs
    by_cases h1 : k < k'
    · have hnone : mapGet ((k', y) :: rest) k = none := by
        refine mapGet_eq_none_of_forall_lt _ _ ?_
        intro q hq
        rcases List.mem_cons.mp hq with h | h
        · rw [h]; exact h1
        · exact lt_trans h1 (hgt q h)
      simp [mapInsert, h1, hnone]
    · by_cases h2 : k = k'
      · subst h2
        simp [mapInsert, h1, mapGet_cons_self]
      · simp only [mapInsert, if_neg h1, if_neg h2]
        rw [mapGet_cons_ne (fun h => h2 h.symm)]
        exact ih hrest

theorem mapInsert_get_self (m : List (Nat × v)) (k : Nat) (x : v) :
    mapGet (mapInsert m k x).1 k = some x := by
  induction m with
  | nil => exact mapGet_cons_self
  | cons p rest ih =>
    obtain ⟨k', y⟩ := p
    by_cases h1 : k < k'
    · simp only [mapInsert, if_pos h1]
      exact mapGet_cons_self
    · by_cases h2 : k = k'
      · subst h2
        simp only [mapInsert, if_neg h1, if_pos rfl]
        exact mapGet_cons_self
      · simp only [mapInsert, if_neg h1, if_neg h2]
        rw [mapGet_cons_ne (fun h => h2 h.symm)]
        exact ih

theorem mapInsert_get_other (m : List (Nat × v)) (k j : Nat) (x : v)
    (hjk : j ≠ k) : mapGet (mapInsert m k x).1 j = mapGet m j := by
  have hkj : k ≠ j := fun h => hjk h.symm
  induction m with
  | nil =>
    simp only [mapInsert]
    rw [mapGet_cons_ne hkj]
  | cons p rest ih =>
    obtain ⟨k', y⟩ := p
    by_cases h1 : k < k'
    · simp only [mapInsert, if_pos h1]
      rw [mapGet_cons_ne hkj]
    · by_cases h2 : k = k'
      · subst h2
        have hins : mapInsert ((k, y) :: rest) k x = ((k, x) :: rest, some y) := by
          simp [mapInsert, h1]
        rw [hins]
        rw [mapGet_cons_ne hkj, mapGet_cons_ne hkj]
      · simp only [mapInsert, if_neg h1, if_neg h2]
        by_cases h3 : k' = j
        · subst h3
          rw [mapGet_cons_self, mapGet_cons_self]
        · rw [mapGet_cons_ne h3, mapGet_cons_ne h3]
          exact ih

/-! ## C9: ProcessList::insert on an existing pid -/

/-- C9: inserting a task whose pid is already bound returns `ProcExists`,
yet the table has been mutated: the old task under that pid has been
replaced by the new one (other bindings are untouched). -/
theorem insert_existing_pid_errors_but_replaces (pl : List (Nat × Task))
    (hs : SortedMap pl) (t told : Task) (hold : mapGet pl t.id = some told) :
    (processListInsert pl t).2 = Except.error SchedulerError.procExists ∧
    mapGet (processListInsert pl t).1 t.id = some t ∧
    ∀ j, j ≠ t.id → mapGet (processListInsert pl t).1 j = mapGet pl j := by
  refine ⟨?_, ?_, ?_⟩
  · simp [processListInsert, mapInsert_snd_eq_get pl hs, hold]
  · simpa [processListInsert] using mapInsert_get_self pl t.id t
  · intro j hj
    simpa [processListInsert] using mapInsert_get_other pl t.id j t hj

/-- Witness for C9: replacing the pid-7 task in a two-entry table. -/
theorem insert_existing_pid_errors_but_replaces_witness :
    mapGet [(0, pid0Task), (7, oldT7)] (newT7).id = some oldT7 ∧
    (processListInsert [(0, pid0Task), (7, oldT7)] newT7).2 =
      Except.error SchedulerError.procExists ∧
    mapGet (processListInsert [(0, pid0Task), (7, oldT7)] newT7).1 7 = some newT7 := by
  have h := insert_existing_pid_errors_but_replaces
    [(0, pid0Task), (7, oldT7)] (by decide) newT7 oldT7 (by decide)
  exact ⟨by decide, h.1, h.2.1⟩

/-! ## C6: scheduler selection -/

theorem find?_split {α : Type u} (p : α → Bool) (l : List α) (a : α)
    (h : l.find? p = some a) :
    ∃ l1 l2, l = l1 ++ a :: l2 ∧ (∀ x ∈ l1, p x = false) ∧ p a = true := by
  induction l with
  | nil => simp [List.find?] at h
  | cons x xs ih =>
    rw [List.find?_cons] at h
    cases hpx : p x with
    | true =>
      rw [hpx] at h
      obtain rfl : x = a := by simpa using h
      exact ⟨[], xs, rfl, by simp, hpx⟩
    | false =>
      rw [hpx] at h
      obtain ⟨l1, l2, hl, hnone, hpa⟩ := ih h
      exact ⟨x :: l1, l2, by rw [hl, List.cons_append], by
        intro z hz
        rcases List.mem_cons.mp hz with h | h
        · rw [h]; exact hpx
        · exact hnone z h, hpa⟩

theorem runnable_spec {apicId : Nat} {t : Task} (h : t.runnable apicId = true) :
    t.id ≠ 0 ∧ t.coreId = some apicId ∧ t.status = Status.ready := by
  unfold Task.runnable at h
  by_cases h0 : t.id = 0
  · rw [if_pos h0] at h
    exact absurd h (by simp)
  · rw [if_neg h0] at h
    cases hc : t.coreId with
    | none => rw [hc] at h; simp at h
    | some c =>
      rw [hc] at h
      simp only [Option.map_some', Option.getD_some, Bool.and_eq_true,
        decide_eq_true_eq] at h
      exact ⟨h0, congrArg some h.1, h.2⟩

/-- C6: whenever `get_next` returns a task, its pid is not 0, its status is
`Ready` and its core id equals the invoking core's; moreover the table is
iterated from just past the current pid, wrapping around, and the returned
task is the first runnable one in that order. -/
theorem get_next_selects_first_runnable (pl : List (Nat × Task))
    (currentId apicId : Nat) (t : Task)
    (h : processListGetNext pl currentId apicId = some t) :
    t.id ≠ 0 ∧ t.status = Status.ready ∧ t.coreId = some apicId ∧
    ∃ l1 l2 q, (pl.filter (fun p => decide (currentId < p.1)) ++
        pl.filter (fun p => decide (p.1 < currentId))) = l1 ++ q :: l2 ∧
      q.2 = t ∧ ∀ r ∈ l1, (r.2).runnable apicId = false := by
  unfold processListGetNext at h
  set others := pl.filter (fun p => decide (currentId < p.1)) ++
    pl.filter (fun p => decide (p.1 < currentId)) with hothers
  obtain ⟨q, hfind, hq⟩ := Option.map_eq_some'.mp h
  obtain ⟨l1, l2, hsplit, hnone, hpq⟩ :=
    find?_split (fun p => (p.2).runnable apicId) others q hfind
  have hrun := runnable_spec (t := q.2) hpq
  rw [hq] at hrun
  exact ⟨hrun.1, hrun.2.2, hrun.2.1,
    l1, l2, q, hsplit, hq, fun r hr => hnone r hr⟩

/-- Witness for C6: in a three-entry table with current pid 5, iteration
starts at pid 7 (just past 5) and the ready core-1 task with pid 7 is
selected on core 1. -/
theorem get_next_selects_first_runnable_witness :
    processListGetNext [(0, pid0Task), (2, readyT2), (7, oldT7)] 5 1 =
      some oldT7 ∧
    (oldT7).id ≠ 0 ∧ (oldT7).status = Status.ready ∧
    (oldT7).coreId = some 1 := by
  have h := get_next_selects_first_runnable
    [(0, pid0Task), (2, readyT2), (7, oldT7)] 5 1 oldT7 (by decide)
  exact ⟨by decide, h.1, h.2.1, h.2.2.1⟩

/-! ## C8: open-files key density -/

theorem mapInsert_append_of_forall_lt (m : List (Nat × v)) (k : Nat) (x : v)
    (h : ∀ p ∈ m, p.1 < k) : (mapInsert m k x).1 = m ++ [(k, x)] := by
  induction m with
  | nil => rfl
  | cons p rest ih =>
    obtain ⟨k', y⟩ := p
    have hk' := h (k', y) (List.mem_cons_self _ rest)
    simp only at hk'
    have h1 : ¬ (k < k') := by omega
    have h2 : ¬ (k = k') := by omega
    simp only [mapInsert, if_neg h1, if_neg h2, List.cons_append, List.cons.injEq,
      true_and]
    exact ih (fun q hq => h q (List.mem_cons_of_mem _ hq))

theorem mapRemove_append_last (m : List (Nat × v)) (k : Nat) (y : v)
    (h : ∀ p ∈ m, p.1 ≠ k) : mapRemove (m ++ [(k, y)]) k = (m, some y) := by
  induction m with
  | nil => simp [mapRemove]
  | cons p rest ih =>
    obtain ⟨k', z⟩ := p
    have hk' := h (k', z) (List.mem_cons_self _ rest)
    simp only at hk'
    have h2 : ¬ (k = k') := fun hkk => hk' hkk.symm
    simp only [List.cons_append, mapRemove, if_neg h2]
    show ((k', z) :: (mapRemove (rest ++ [(k, y)]) k).1,
          (mapRemove (rest ++ [(k, y)]) k).2) = ((k', z) :: rest, some y)
    rw [ih (fun q hq => h q (List.mem_cons_of_mem _ hq))]

theorem dense_concat {m : List (Nat × Nat)} {k : Nat} {y : Nat}
    (hd : DenseKeys (m ++ [(k, y)])) :
    mapKeys m = List.range m.length ∧ k = m.length := by
  unfold DenseKeys mapKeys at hd
  rw [List.map_append, List.length_append] at hd
  simp only [List.map_cons, List.map_nil, List.length_cons, List.length_nil,
    Nat.zero_add] at hd
  rw [List.range_succ] at hd
  have hlen : (List.map Prod.fst m).length = (List.range m.length).length := by
    simp
  obtain ⟨h1, h2⟩ := List.append_inj hd hlen
  refine ⟨h1, by simpa using h2⟩

/-- C8 counterexample: the fresh task's open-files map is dense, but closing
fd 0 succeeds and leaves the non-dense key set {1, 2}, so `close_file` does
not preserve density. -/
theorem close_file_breaks_density :
    DenseKeys taskNewOpenFiles ∧
    (closeFile taskNewOpenFiles 0).2 = Except.ok () ∧
    ¬ DenseKeys (closeFile taskNewOpenFiles 0).1 := by
  refine ⟨by decide, by decide, by decide⟩

/-- C8 amended: the open-files keys are dense from 0 after task creation;
`add_open_file` preserves density on a nonempty map (appending the next fd);
`close_file` preserves density exactly when it removes the greatest fd
(closing any other fd leaves a hole, see the counterexample). -/
theorem open_files_density (files : List (Nat × Nat)) (v : Nat)
    (hd : DenseKeys files) (hne : files ≠ []) :
    DenseKeys taskNewOpenFiles ∧
    DenseKeys (addOpenFile files v).1 ∧
    (addOpenFile files v).2 = files.length ∧
    DenseKeys (closeFile files (files.length - 1)).1 := by
  have hn : 0 < files.length := List.length_pos.mpr hne
  have hkeys : mapKeys files = List.range files.length := hd
  have hlast : (files.getLast?.map Prod.fst) = some (files.length - 1) := by
    have h1 : (files.map Prod.fst).getLast? = files.getLast?.map Prod.fst := by
      rw [List.getLast?_map]
    have h2 : (List.range files.length).getLast? = some (files.length - 1) := by
      obtain ⟨n, hn'⟩ := Nat.exists_eq_add_of_lt hn
      rw [show files.length = n + 1 by omega, List.range_succ,
        List.getLast?_concat]
      simp
    rw [← h1, show files.map Prod.fst = mapKeys files from rfl, hkeys, h2]
  have hfd : ((files.getLast?.map Prod.fst).getD 0) = files.length - 1 := by
    rw [hlast]; rfl
  have hlt : ∀ p ∈ files, p.1 < files.length := by
    intro p hp
    have : p.1 ∈ mapKeys files := List.mem_map_of_mem Prod.fst hp
    rw [hkeys] at this
    exact List.mem_range.mp this
  refine ⟨by decide, ?_, ?_, ?_⟩
  · unfold addOpenFile
    rw [hfd]
    have hmono : ∀ p ∈ files, p.1 < files.length - 1 + 1 := by
      intro p hp; have := hlt p hp; omega
    rw [mapInsert_append_of_forall_lt files _ v hmono]
    unfold DenseKeys mapKeys
    rw [List.map_append, List.length_append]
    show mapKeys files ++ [files.length - 1 + 1] = _
    rw [hkeys]
    have : files.length - 1 + 1 = files.length := by omega
    rw [this]
    simp [List.range_succ]
  · unfold addOpenFile
    rw [hfd]
    simp only
    omega
  · obtain ⟨m, q, hqm⟩ : ∃ m q, files = m ++ [q] := by
      rcases List.eq_nil_or_concat files with h | h
      · exact absurd h hne
      · obtain ⟨L, b, h⟩ := h
        exact ⟨L, b, by rw [h, List.concat_eq_append]⟩
    obtain ⟨k, y⟩ := q
    subst hqm
    obtain ⟨hm, hk⟩ := dense_concat hd
    have hothers : ∀ p ∈ m, p.1 ≠ k := by
      intro p hp
      have h1 : p.1 ∈ mapKeys m := List.mem_map_of_mem Prod.fst hp
      rw [hm] at h1
      have := List.mem_range.mp h1
      omega
    have hlen : (m ++ [(k, y)]).length - 1 = k := by
      rw [List.length_append]
      simp only [List.length_cons, List.length_nil]
      omega
    show DenseKeys (mapRemove (m ++ [(k, y)]) ((m ++ [(k, y)]).length - 1)).1
    rw [hlen, mapRemove_append_last m k y hothers]
    exact hm

/-- Witness for C8 amended, on the fresh three-entry map. -/
theorem open_files_density_witness :
    DenseKeys taskNewOpenFiles ∧
    DenseKeys (addOpenFile taskNewOpenFiles 9).1 ∧
    (addOpenFile taskNewOpenFiles 9).2 = 3 ∧
    DenseKeys (closeFile taskNewOpenFiles 2).1 := by
  have h := open_files_density taskNewOpenFiles 9 (by decide) (by decide)
  exact ⟨h.1, h.2.1, h.2.2.1, h.2.2.2⟩

/-! ## C5: the walker advance contract -/

/-- C5: for every walker state (level between 1 and 4, the invariant
`Mapper::new` and the operations maintain), `advance` fails with
`BottomLevel` exactly when the walker is at level 1; otherwise it fails
with `NotPresent` exactly when the entry it would descend into is unused;
otherwise it fails with `HugeFrame(level)` exactly when that entry carries
the huge and present flags (at the walker level, which is above 1); and
otherwise it descends one level and succeeds. -/
theorem advance_spec (mem : Memory) (m : Mapper)
    (hlevel : 1 ≤ m.currentLevel) :
    (Mapper.advance mem m = Except.error MapError.bottomLevel ↔
      m.currentLevel = 1) ∧
    (m.currentLevel ≠ 1 →
      ((Mapper.advance mem m = Except.error MapError.notPresent ↔
        (m.nextEntry mem).isUnused = true) ∧
       (∀ l, Mapper.advance mem m = Except.error (MapError.hugeFrame l) ↔
         ((m.nextEntry mem).isUnused = false ∧
          ((m.nextEntry mem).huge && (m.nextEntry mem).present) = true ∧
          l = m.currentLevel ∧ 1 < m.currentLevel)) ∧
       ((m.nextEntry mem).isUnused = false →
        ((m.nextEntry mem).huge && (m.nextEntry mem).present) = false →
        Mapper.advance mem m = Except.ok
          { m with
              prevPtrs := m.currentPtr :: m.prevPtrs,
              currentPtr := (m.nextEntry mem).addr,
              currentLevel := m.currentLevel - 1 }))) := by
  constructor
  · constructor
    · intro h
      by_contra hne
      unfold Mapper.advance at h
      rw [if_neg hne] at h
      by_cases hu : ((m.nextEntry mem).isUnused) = true
      · rw [if_pos hu] at h
        exact MapError.noConfusion (Except.error.inj h)
      · rw [if_neg hu] at h
        by_cases hh : ((m.nextEntry mem).huge && (m.nextEntry mem).present) = true
        · rw [if_pos hh] at h
          exact MapError.noConfusion (Except.error.inj h)
        · rw [if_neg hh] at h
          exact Except.noConfusion h
    · intro h1
      unfold Mapper.advance
      rw [if_pos h1]
  · intro hne
    refine ⟨⟨?_, ?_⟩, ?_, ?_⟩
    · intro h
      unfold Mapper.advance at h
      rw [if_neg hne] at h
      by_cases hu : ((m.nextEntry mem).isUnused) = true
      · exact hu
      · rw [if_neg hu] at h
        by_cases hh : ((m.nextEntry mem).huge && (m.nextEntry mem).present) = true
        · rw [if_pos hh] at h
          exact MapError.noConfusion (Except.error.inj h)
        · rw [if_neg hh] at h
          exact Except.noConfusion h
    · intro hu
      unfold Mapper.advance
      rw [if_neg hne, if_pos hu]
    · intro l
      constructor
      · intro h
        unfold Mapper.advance at h
        rw [if_neg hne] at h
        by_cases hu : ((m.nextEntry mem).isUnused) = true
        · rw [if_pos hu] at h
          exact MapError.noConfusion (Except.error.inj h)
        · rw [if_neg hu] at h
          by_cases hh : ((m.nextEntry mem).huge && (m.nextEntry mem).present) = true
          · rw [if_pos hh] at h
            have := MapError.hugeFrame.inj (Except.error.inj h)
            exact ⟨Bool.not_eq_true _ ▸ hu, hh, this.symm, by omega⟩
          · rw [if_neg hh] at h
            exact Except.noConfusion h
      · rintro ⟨hu, hh, rfl, _⟩
        unfold Mapper.advance
        rw [if_neg hne, if_neg (hu ▸ Bool.false_ne_true), if_pos hh]
    · intro hu hh
      unfold Mapper.advance
      rw [if_neg hne, if_neg (hu ▸ Bool.false_ne_true), if_neg (hh ▸ Bool.false_ne_true)]

/-- Witness for C5 on the concrete walk of virtual address 0 through
`c5Mem`: the fresh walker descends from level 4 and each outcome follows
the contract. -/
theorem advance_spec_witness :
    1 ≤ (Mapper.new 0 100).currentLevel ∧
    Mapper.advance c5Mem (Mapper.new 0 100) ≠
      Except.error MapError.bottomLevel ∧
    Mapper.advance c5Mem (Mapper.new 0 100) = Except.ok
      { Mapper.new 0 100 with
          prevPtrs := [100],
          currentPtr := 200,
          currentLevel := 3 } := by
  have h := advance_spec c5Mem (Mapper.new 0 100) (by decide)
  refine ⟨by decide, ?_, ?_⟩
  · intro hc
    exact absurd (h.1.mp hc) (by decide)
  · have := (h.2 (by decide)).2.2 (by decide) (by decide)
    exact this.trans (by decide)

/-! ## C3: PMM allocation disjointness and the trampoline frame -/

theorem foldl_cons_reverse (l acc : List Nat) :
    l.foldl (fun a f => f :: a) acc = l.reverse ++ acc := by
  induction l generalizing acc with
  | nil => rfl
  | cons x xs ih =>
    simp only [List.foldl_cons, List.reverse_cons, ih, List.append_assoc,
      List.singleton_append]

theorem fill_frames (st : FrameStack) (r : PhysicalRegion) :
    (st.fill r).frames = r.frameList.reverse ++ st.frames :=
  foldl_cons_reverse _ _

theorem regionInsert_perm (l : List PhysicalRegion) (r : PhysicalRegion)
    (h : ∀ x ∈ l, regionOrdEq r x = false) :
    List.Perm (regionInsert l r) (r :: l) := by
  induction l with
  | nil => exact List.Perm.refl _
  | cons x xs ih =>
    have hx := h x (List.mem_cons_self _ _)
    have hcond : ¬ (regionOrdEq r x = true) := by simp [hx]
    rw [regionInsert, if_neg hcond]
    by_cases hlt : r.start < x.start
    · rw [if_pos hlt]
    · rw [if_neg hlt]
      exact (List.Perm.cons x (ih (fun q hq => h q (List.mem_cons_of_mem _ hq)))).trans
        (List.Perm.swap r x xs)

theorem perm_stack_helper (a b c : List Nat) :
    List.Perm ((b.reverse ++ a) ++ c) (a ++ (b ++ c)) := by
  have h1 : List.Perm ((b.reverse ++ a) ++ c) ((b ++ a) ++ c) :=
    ((b.reverse_perm).append_right a).append_right c
  have h2 : List.Perm ((b ++ a) ++ c) ((a ++ b) ++ c) :=
    (List.perm_append_comm).append_right c
  have h3 : (a ++ b) ++ c = a ++ (b ++ c) := List.append_assoc a b c
  exact h3 ▸ (h1.trans h2)

theorem perm_flatten_of_perm {α : Type u} {l1 l2 : List (List α)}
    (h : List.Perm l1 l2) : List.Perm l1.flatten l2.flatten := by
  induction h with
  | nil => exact List.Perm.refl _
  | cons x _ ih => simpa only [List.flatten_cons] using ih.append_left x
  | swap x y l =>
    simp only [List.flatten_cons]
    have h1 : (y ++ x) ++ l.flatten = y ++ (x ++ l.flatten) :=
      List.append_assoc _ _ _
    have h2 : (x ++ y) ++ l.flatten = x ++ (y ++ l.flatten) :=
      List.append_assoc _ _ _
    have h3 : List.Perm ((y ++ x) ++ l.flatten) ((x ++ y) ++ l.flatten) :=
      (List.perm_append_comm).append_right _
    exact h1 ▸ h2 ▸ h3
  | trans _ _ ih1 ih2 => exact ih1.trans ih2

theorem frameStack_allocate_some {st : FrameStack} {f : Nat} {st2 : FrameStack}
    (h : st.allocate = some (f, st2)) : st.frames = f :: st2.frames := by
  unfold FrameStack.allocate at h
  split at h
  · exact absurd h (by simp)
  · rename_i g rest heq
    obtain h2 := Option.some.inj h
    rw [Prod.ext_iff] at h2
    obtain ⟨h3, h4⟩ := h2
    simp only at h3 h4
    rw [heq, h3, ← h4]

theorem frameStack_allocate_none {st : FrameStack} (h : st.allocate = none) :
    st.frames = [] := by
  unfold FrameStack.allocate at h
  split at h
  · rename_i heq
    exact heq
  · exact absurd h (by simp)

theorem fillFrameAllocator_perm (s s2 : PhysicalMemoryManager)
    (hreg : RegsOk s.freeRegions)
    (h : fillFrameAllocator s = some s2) :
    List.Perm (pmmFreeFrameList s2) (pmmFreeFrameList s) ∧
      RegsOk s2.freeRegions := by
  unfold fillFrameAllocator at h
  split at h
  · exact absurd h (by simp)
  · rename_i entry rest heq
    rw [heq] at hreg
    split at h
    · rename_i hu
      obtain rfl := Option.some.inj h
      constructor
      · simp only [pmmFreeFrameList, fill_frames, heq, List.map_cons,
          List.flatten_cons]
        exact perm_stack_helper _ _ _
      · exact (List.pairwise_cons.mp hreg).2
    · rename_i hu
      split at h
      · exact absurd h (by simp)
      · rename_i newEntry rest2
        obtain rfl := Option.some.inj h
        have hentry : ∀ x ∈ rest2, regionOrdEq entry x = false := by
          intro x hxm
          exact ((List.pairwise_cons.mp hreg).1 x
            (List.mem_cons_of_mem _ hxm)).1
        have hperm := regionInsert_perm rest2 entry hentry
        constructor
        · simp only [pmmFreeFrameList, fill_frames, heq, List.map_cons,
            List.flatten_cons]
          have hflat : List.Perm
              ((regionInsert rest2 entry).map PhysicalRegion.frameList).flatten
              (entry.frameList ++
                (rest2.map PhysicalRegion.frameList).flatten) := by
            have h1 := perm_flatten_of_perm
              (hperm.map PhysicalRegion.frameList)
            simpa only [List.map_cons, List.flatten_cons] using h1
          have step1 : List.Perm
              ((newEntry.frameList.reverse ++ s.frames.frames) ++
                ((regionInsert rest2 entry).map PhysicalRegion.frameList).flatten)
              ((newEntry.frameList.reverse ++ s.frames.frames) ++
                (entry.frameList ++
                  (rest2.map PhysicalRegion.frameList).flatten)) :=
            List.Perm.append_left _ hflat
          have step2 : List.Perm
              ((newEntry.frameList.reverse ++ s.frames.frames) ++
                (entry.frameList ++
                  (rest2.map PhysicalRegion.frameList).flatten))
              (s.frames.frames ++ (newEntry.frameList ++
                (entry.frameList ++
                  (rest2.map PhysicalRegion.frameList).flatten))) :=
            perm_stack_helper _ _ _
          have hinner : List.Perm
              (newEntry.frameList ++ (entry.frameList ++
                (rest2.map PhysicalRegion.frameList).flatten))
              (entry.frameList ++ (newEntry.frameList ++
                (rest2.map PhysicalRegion.frameList).flatten)) := by
            have ha : (newEntry.frameList ++ entry.frameList) ++
                (rest2.map PhysicalRegion.frameList).flatten =
                newEntry.frameList ++ (entry.frameList ++
                  (rest2.map PhysicalRegion.frameList).flatten) :=
              List.append_assoc _ _ _
            have hb : (entry.frameList ++ newEntry.frameList) ++
                (rest2.map PhysicalRegion.frameList).flatten =
                entry.frameList ++ (newEntry.frameList ++
                  (rest2.map PhysicalRegion.frameList).flatten) :=
              List.append_assoc _ _ _
            have hc : List.Perm
                ((newEntry.frameList ++ entry.frameList) ++
                  (rest2.map PhysicalRegion.frameList).flatten)
                ((entry.frameList ++ newEntry.frameList) ++
                  (rest2.map PhysicalRegion.frameList).flatten) :=
              (List.perm_append_comm).append_right _
            exact ha ▸ hb ▸ hc
          have step3 : List.Perm
              (s.frames.frames ++ (newEntry.frameList ++
                (entry.frameList ++
                  (rest2.map PhysicalRegion.frameList).flatten)))
              (s.frames.frames ++ (entry.frameList ++ (newEntry.frameList ++
                (rest2.map PhysicalRegion.frameList).flatten))) :=
            List.Perm.append_left _ hinner
          exact (step1.trans step2).trans step3
        · show List.Pairwise (fun a b => regionOrdEq a b = false ∧
              regionOrdEq b a = false) (regionInsert rest2 entry)
          refine (List.Perm.pairwise_iff
            (fun hab => ⟨hab.2, hab.1⟩) hperm).mpr ?_
          refine List.pairwise_cons.mpr ⟨?_, ?_⟩
          · intro x hxm
            exact (List.pairwise_cons.mp hreg).1 x (List.mem_cons_of_mem _ hxm)
          · exact (List.pairwise_cons.mp
              (List.pairwise_cons.mp hreg).2).2

theorem pmmRequestFrame_perm (s : PhysicalMemoryManager) (f : Nat)
    (s' : PhysicalMemoryManager) (hreg : RegsOk s.freeRegions)
    (h : pmmRequestFrame s = some (f, s')) :
    List.Perm (pmmFreeFrameList s) (f :: pmmFreeFrameList s') ∧
      RegsOk s'.freeRegions := by
  unfold pmmRequestFrame at h
  split at h
  · rename_i f0 st0 heq
    obtain h2 := Option.some.inj h
    rw [Prod.ext_iff] at h2
    obtain ⟨h3, h4⟩ := h2
    dsimp only at h3 h4
    rw [← h3, ← h4]
    have hst := frameStack_allocate_some heq
    constructor
    · simp only [pmmFreeFrameList, hst, List.cons_append]
      exact List.Perm.refl _
    · exact hreg
  · rename_i heq0
    split at h
    · exact absurd h (by simp)
    · rename_i s2 heq2
      split at h
      · exact absurd h (by simp)
      · rename_i f0 st0 heq3
        obtain h2 := Option.some.inj h
        rw [Prod.ext_iff] at h2
        obtain ⟨h3, h4⟩ := h2
        dsimp only at h3 h4
        rw [← h3, ← h4]
        obtain ⟨hperm2, hreg2⟩ := fillFrameAllocator_perm s s2 hreg heq2
        have hst2 := frameStack_allocate_some heq3
        constructor
        · have hs2 : pmmFreeFrameList s2 = f0 :: (pmmFreeFrameList
              { s2 with frames := st0 }) := by
            simp only [pmmFreeFrameList, hst2, List.cons_append]
          rw [← hs2]
          exact hperm2.symm
        · exact hreg2

/-- C3 amended: from any PMM state whose free frames (stack plus regions)
are duplicate-free, exclude 0x8000 and have pairwise-disjoint regions, two
successive `allocate_frame` calls return distinct frames and neither is
0x8000.  The exclusion of 0x8000 holds after `init` (regions starting below
0x10000 go to the low-memory set, which `request_frame` never draws from)
but is lost once the trampoline page is pushed back with `release_frame`,
see the counterexample. -/
theorem allocate_twice_distinct_and_avoids_trampoline
    (s : PhysicalMemoryManager)
    (hnd : (pmmFreeFrameList s).Nodup)
    (h8 : TRAMPOLINE_ADDR ∉ pmmFreeFrameList s)
    (hreg : RegsOk s.freeRegions)
    (f1 f2 : Nat) (s1 s2 : PhysicalMemoryManager)
    (h1 : pmmRequestFrame s = some (f1, s1))
    (h2 : pmmRequestFrame s1 = some (f2, s2)) :
    f1 ≠ f2 ∧ f1 ≠ TRAMPOLINE_ADDR ∧ f2 ≠ TRAMPOLINE_ADDR := by
  obtain ⟨hp1, hr1⟩ := pmmRequestFrame_perm s f1 s1 hreg h1
  obtain ⟨hp2, _⟩ := pmmRequestFrame_perm s1 f2 s2 hr1 h2
  have hm1 : f1 ∈ pmmFreeFrameList s :=
    hp1.mem_iff.mpr (List.mem_cons_self _ _)
  have hnd1 : (f1 :: pmmFreeFrameList s1).Nodup := hp1.nodup_iff.mp hnd
  have hf1notin : f1 ∉ pmmFreeFrameList s1 := (List.nodup_cons.mp hnd1).1
  have hm2 : f2 ∈ pmmFreeFrameList s1 :=
    hp2.mem_iff.mpr (List.mem_cons_self _ _)
  have hsub : f2 ∈ pmmFreeFrameList s :=
    hp1.mem_iff.mpr (List.mem_cons_of_mem _ hm2)
  refine ⟨?_, ?_, ?_⟩
  · intro hq
    exact hf1notin (hq ▸ hm2)
  · intro hq
    exact h8 (hq ▸ hm1)
  · intro hq
    exact h8 (hq ▸ hsub)

/-- Witness for C3 amended: a two-frame stack yields 0x1000 then 0x2000. -/
theorem allocate_twice_distinct_and_avoids_trampoline_witness :
    pmmRequestFrame twoFramePmm = some (0x1000, twoFramePmmAfter1) ∧
    (0x1000 : Nat) ≠ 0x2000 ∧ (0x1000 : Nat) ≠ TRAMPOLINE_ADDR ∧
    (0x2000 : Nat) ≠ TRAMPOLINE_ADDR := by
  have h := allocate_twice_distinct_and_avoids_trampoline twoFramePmm
    (by decide) (by decide) (by decide) 0x1000 0x2000 twoFramePmmAfter1
    { twoFramePmmAfter1 with frames := { frames := [] } }
    (by decide) (by decide)
  exact ⟨by decide, h⟩

/-- C3 counterexample: the claim that `allocate_frame` never returns the
frame at 0x8000 fails on the code: `request_frame` has no 0x8000 bypass,
and the state right after SMP bring-up releases the trampoline page
(`Trampoline::destroy` runs `MemoryManager::kunmap`, whose
`release_frame(0x8000)` pushes it on the free stack) makes the very next
`allocate_frame` return 0x8000. -/
theorem allocate_frame_returns_trampoline_frame :
    (pmmRequestFrame (pmmReleaseFrame afterSmpPmm TRAMPOLINE_ADDR)).map
      Prod.fst = some TRAMPOLINE_ADDR := by
  decide

/-! ## C4: the page-table deep copy -/

theorem mem_tableAddrs_self (mem : Memory) (level t : Nat) :
    t ∈ tableAddrs mem level t := by
  match level with
  | 0 => simp [tableAddrs]
  | 1 => simp [tableAddrs]
  | l + 2 => simp [tableAddrs]

theorem tableAddrs_subtree_sub (mem : Memory) (l t i : Nat) (hi : i < 512)
    (hu : (mem t i).isUnused = false) :
    ∀ y ∈ tableAddrs mem (l + 1) (mem t i).addr, y ∈ tableAddrs mem (l + 2) t := by
  intro y hy
  simp only [tableAddrs, List.mem_cons, List.mem_flatMap, List.mem_range]
  refine Or.inr ⟨i, hi, ?_⟩
  rw [if_neg (by simp [hu])]
  exact hy

theorem getD_lt_512 (idxs : List Nat) (k : Nat) (h : ∀ j ∈ idxs, j < 512) :
    idxs.getD k 0 < 512 := by
  rw [List.getD_eq_getElem?_getD]
  rcases hq : idxs[k]? with _ | j
  · simp
  · simpa using h j (List.getElem?_mem hq)

theorem isUnused_eq_true_iff (e : PTEntry) : e.isUnused = true ↔ e = PTEntry.unused := by
  cases e <;> simp [PTEntry.isUnused]

theorem tableAddrs_congr (mem mem2 : Memory) :
    ∀ level t, (∀ y ∈ tableAddrs mem level t, mem2 y = mem y) →
    tableAddrs mem2 level t = tableAddrs mem level t
  | 0, t, _ => rfl
  | 1, t, _ => rfl
  | (l + 2), t, h => by
    have ht : mem2 t = mem t := h t (mem_tableAddrs_self mem (l + 2) t)
    simp only [tableAddrs]
    refine congrArg (List.cons t) (List.flatMap_congr ?_)
    intro i hi
    rw [ht]
    by_cases hu : (mem t i).isUnused
    · rw [if_pos hu, if_pos hu]
    · rw [if_neg hu, if_neg hu]
      exact tableAddrs_congr mem mem2 (l + 1) (mem t i).addr
        (fun y hy => h y (tableAddrs_subtree_sub mem l t i (List.mem_range.mp hi)
          (Bool.not_eq_true _ ▸ eq_false_of_ne_true hu) y hy))

theorem noHugeTree_congr (mem mem2 : Memory) :
    ∀ level t, (∀ y ∈ tableAddrs mem level t, mem2 y = mem y) →
    NoHugeTree mem level t → NoHugeTree mem2 level t
  | 0, _, _, _ => trivial
  | 1, _, _, _ => trivial
  | (l + 2), t, h, hnh => by
    have ht : mem2 t = mem t := h t (mem_tableAddrs_self mem (l + 2) t)
    intro i hi hu
    rw [ht] at hu ⊢
    obtain ⟨h1, h2⟩ := hnh i hi hu
    refine ⟨h1, noHugeTree_congr mem mem2 (l + 1) (mem t i).addr ?_ h2⟩
    exact fun y hy => h y (tableAddrs_subtree_sub mem l t i hi hu y hy)

theorem resolveFrom_congr (mem mem2 : Memory) :
    ∀ level t idxs, (∀ y ∈ tableAddrs mem level t, mem2 y = mem y) →
    (∀ j ∈ idxs, j < 512) →
    resolveFrom mem2 level t idxs = resolveFrom mem level t idxs
  | 0, _, _, _, _ => rfl
  | 1, t, idxs, h, _ => by
    have ht : mem2 t = mem t := h t (mem_tableAddrs_self mem 1 t)
    simp only [resolveFrom, ht]
  | (l + 2), t, idxs, h, hidx => by
    have ht : mem2 t = mem t := h t (mem_tableAddrs_self mem (l + 2) t)
    simp only [resolveFrom, ht]
    set i := idxs.getD (4 - (l + 2)) 0 with hidef
    have hlt : i < 512 := getD_lt_512 idxs _ hidx
    by_cases hu : (mem t i).isUnused
    · rw [if_pos hu, if_pos hu]
    · rw [if_neg hu, if_neg hu]
      by_cases hh : ((mem t i).huge && (mem t i).present) = true
      · rw [if_pos hh, if_pos hh]
      · rw [if_neg hh, if_neg hh]
        exact resolveFrom_congr mem mem2 (l + 1) (mem t i).addr idxs
          (fun y hy => h y (tableAddrs_subtree_sub mem l t i hlt
            (Bool.not_eq_true _ ▸ eq_false_of_ne_true hu) y hy)) hidx

theorem writeEntryAt_other (m : Memory) (t i : Nat) (e : PTEntry) (x : Nat)
    (hx : x ≠ t) : writeEntryAt m t i e x = m x :=
  Function.update_noteq hx _ _

theorem writeEntryAt_self (m : Memory) (t i : Nat) (e : PTEntry) :
    writeEntryAt m t i e t i = e := by
  simp [writeEntryAt]

theorem writeEntryAt_self_other (m : Memory) (t i : Nat) (e : PTEntry)
    (j : Nat) (hj : j ≠ i) : writeEntryAt m t i e t j = m t j := by
  simp [writeEntryAt, Function.update_noteq hj]

theorem deepCopyInner_succ (F : Nat → Nat) (l t : Nat) (m : Memory) (n : Nat) :
    deepCopyInner F (l + 1) t m n =
      (F n, copyGoRun F (l + 1) t (F n) (List.range 512)
        (Function.update m (F n) emptyTable) (n + 1)) := by
  show (F n, (copyGoRun F (l + 1) t (F n) (List.range 512)
        (Function.update m (F n) emptyTable) (n + 1)).1,
      (copyGoRun F (l + 1) t (F n) (List.range 512)
        (Function.update m (F n) emptyTable) (n + 1)).2) = _
  rfl

theorem copyGoRun_nil (F : Nat → Nat) (level t newAddr : Nat) (m : Memory)
    (n : Nat) : copyGoRun F level t newAddr [] m n = (m, n) := rfl

theorem copyGoRun_cons_unused (F : Nat → Nat) (level t newAddr i : Nat)
    (is : List Nat) (m : Memory) (n : Nat) (hu : (m t i).isUnused = true) :
    copyGoRun F level t newAddr (i :: is) m n =
      copyGoRun F level t newAddr is m n := by
  simp only [copyGoRun, copyGo, hu, if_true]

theorem copyGoRun_cons_copy (F : Nat → Nat) (level t newAddr i : Nat)
    (is : List Nat) (m : Memory) (n : Nat) (hu : (m t i).isUnused = false)
    (hcond : (level = 4 ∧ i > 509) ∨ level = 1) :
    copyGoRun F level t newAddr (i :: is) m n =
      copyGoRun F level t newAddr is (writeEntryAt m newAddr i (m t i)) n := by
  by_cases h49 : level = 4 ∧ i > 509
  · simp only [copyGoRun, copyGo, hu, Bool.false_eq_true, if_false, if_pos h49]
  · have h1 : level = 1 := hcond.resolve_left h49
    simp only [copyGoRun, copyGo, hu, Bool.false_eq_true, if_false,
      if_neg h49, if_pos h1]

theorem copyGoRun_cons_child (F : Nat → Nat) (level t newAddr i : Nat)
    (is : List Nat) (m : Memory) (n : Nat) (hu : (m t i).isUnused = false)
    (h49 : ¬(level = 4 ∧ i > 509)) (h1 : level ≠ 1) :
    copyGoRun F level t newAddr (i :: is) m n =
      copyGoRun F level t newAddr is
        (writeEntryAt (deepCopyInner F (level - 1) (m t i).addr m n).2.1 newAddr i
          (PTEntry.entry (deepCopyInner F (level - 1) (m t i).addr m n).1
            (m t i).present (m t i).writable (m t i).huge (m t i).user))
        (deepCopyInner F (level - 1) (m t i).addr m n).2.2 := by
  simp only [copyGoRun, copyGo, hu, Bool.false_eq_true, if_false,
    if_neg h49, if_neg h1]

theorem entrySpec_mono (F : Nat → Nat) (mem mem2 : Memory)
    (level t newAddr n1 n2 n3 n4 i : Nat)
    (h1 : n3 ≤ n1) (h2 : n2 ≤ n4)
    (h : EntrySpec F mem mem2 level t newAddr n1 n2 i) :
    EntrySpec F mem mem2 level t newAddr n3 n4 i := by
  rcases h with h | h | ⟨ha, hb, hc, k, hk1, hk2, hval, hstab⟩
  · exact Or.inl h
  · exact Or.inr (Or.inl h)
  · refine Or.inr (Or.inr ⟨ha, hb, hc, k, by omega, by omega, hval, ?_⟩)
    intro m2 hag hfr idxs hidx
    exact hstab m2 hag (fun k2 hk2a hk2b => hfr k2 (by omega) (by omega)) idxs hidx

theorem ne_true_of_eq_false2 {b : Bool} (h : b = false) : ¬(b = true) := by
  simp [h]

theorem isUnused_entry (a : Nat) (p w h u : Bool) :
    (PTEntry.entry a p w h u).isUnused = false := rfl

theorem addr_entry (a : Nat) (p w h u : Bool) :
    (PTEntry.entry a p w h u).addr = a := rfl

theorem present_entry (a : Nat) (p w h u : Bool) :
    (PTEntry.entry a p w h u).present = p := rfl

theorem huge_entry (a : Nat) (p w h u : Bool) :
    (PTEntry.entry a p w h u).huge = h := rfl

theorem entrySpec_resolution (F : Nat → Nat) (mem mem2 memc : Memory) :
    ∀ level t newAddr n1 n2,
    NoHugeTree mem level t →
    (∀ i, i < 512 → EntrySpec F mem memc level t newAddr n1 n2 i) →
    (∀ y, y ∈ tableAddrs mem level t → mem2 y = mem y) →
    (∀ k, n1 ≤ k → k < n2 → mem2 (F k) = memc (F k)) →
    mem2 newAddr = memc newAddr →
    ∀ idxs, (∀ j ∈ idxs, j < 512) →
      resolveFrom mem2 level newAddr idxs = resolveFrom mem level t idxs := by
  intro level t newAddr n1 n2 hnh hspec hag hfr hnA idxs hidx
  match level with
  | 0 => rfl
  | 1 =>
    simp only [resolveFrom]
    set i := idxs.getD 3 0 with hidef
    have hlt : i < 512 := getD_lt_512 _ _ hidx
    have he2 : mem2 newAddr i = memc newAddr i := congrFun hnA i
    rcases hspec i hlt with ⟨hu, hv⟩ | ⟨hu, hc, hv⟩ | ⟨hu, h49, hne1, rest⟩
    · have h1 : mem t i = PTEntry.unused := (isUnused_eq_true_iff _).mp hu
      rw [he2, hv, h1]
    · rw [he2, hv]
    · exact absurd rfl hne1
  | (l + 2) =>
    simp only [resolveFrom]
    set i := idxs.getD (4 - (l + 2)) 0 with hidef
    have hlt : i < 512 := getD_lt_512 _ _ hidx
    have he2 : mem2 newAddr i = memc newAddr i := congrFun hnA i
    have hnh2 := hnh
    simp only [NoHugeTree] at hnh2
    rcases hspec i hlt with ⟨hu, hv⟩ | ⟨hu, hc, hv⟩ |
        ⟨hu, h49, hne1, k, hk1, hk2, hv, hstab⟩
    · have h1 : mem t i = PTEntry.unused := (isUnused_eq_true_iff _).mp hu
      rw [he2, hv, h1]
      rfl
    · obtain ⟨hhp, hsub⟩ := hnh2 i hlt hu
      rw [he2, hv]
      rw [if_neg (ne_true_of_eq_false2 hu), if_neg (ne_true_of_eq_false2 hu),
        if_neg (ne_true_of_eq_false2 hhp), if_neg (ne_true_of_eq_false2 hhp)]
      exact resolveFrom_congr mem mem2 (l + 1) (mem t i).addr idxs
        (fun y hy => hag y (tableAddrs_subtree_sub mem l t i hlt hu y hy)) hidx
    · obtain ⟨hhp, hsub⟩ := hnh2 i hlt hu
      rw [he2, hv]
      rw [if_neg (ne_true_of_eq_false2 (isUnused_entry _ _ _ _ _)),
        if_neg (ne_true_of_eq_false2 hu)]
      rw [huge_entry, present_entry]
      rw [if_neg (ne_true_of_eq_false2 hhp), if_neg (ne_true_of_eq_false2 hhp),
        addr_entry]
      exact hstab mem2 (fun y hy => hag y
        (tableAddrs_subtree_sub mem l t i hlt hu y hy)) hfr idxs hidx

theorem copyGo_spec (F : Nat → Nat) (hF : Function.Injective F)
    (level t newAddr : Nat) (mem : Memory) (n0 : Nat)
    (hchild : level ≠ 1 → CopySpec F (level - 1))
    (hlevel : 1 ≤ level)
    (hnh : NoHugeTree mem level t)
    (hdisj : ∀ k, n0 ≤ k → F k ∉ tableAddrs mem level t)
    (hnt : newAddr ∉ tableAddrs mem level t)
    (hnew : ∀ k, n0 ≤ k → newAddr ≠ F k) :
    ∀ is m n,
      n0 ≤ n →
      (∀ i ∈ is, i < 512) →
      is.Nodup →
      (∀ x, x ≠ newAddr → (∀ k, n0 ≤ k → k < n → x ≠ F k) → m x = mem x) →
      (∀ i ∈ is, m newAddr i = PTEntry.unused) →
      n ≤ (copyGoRun F level t newAddr is m n).2 ∧
      (∀ x, x ≠ newAddr →
        (∀ k, n ≤ k → k < (copyGoRun F level t newAddr is m n).2 → x ≠ F k) →
        (copyGoRun F level t newAddr is m n).1 x = m x) ∧
      (∀ j, j ∉ is → (copyGoRun F level t newAddr is m n).1 newAddr j = m newAddr j) ∧
      (∀ i ∈ is, EntrySpec F mem (copyGoRun F level t newAddr is m n).1 level t
        newAddr n (copyGoRun F level t newAddr is m n).2 i) := by
  intro is
  induction is with
  | nil =>
    intro m n hn _ _ _ _
    rw [copyGoRun_nil]
    exact ⟨le_refl n, fun x _ _ => rfl, fun j _ => rfl,
      fun i hi => absurd hi (List.not_mem_nil i)⟩
  | cons i is ih =>
    intro m n hn hbound hnd hB hU
    have hne_tnew : t ≠ newAddr :=
      fun he => hnt (he ▸ mem_tableAddrs_self mem level t)
    have ht_mem : m t i = mem t i := by
      refine congrFun (hB t hne_tnew ?_) i
      intro k hk _ he
      exact hdisj k hk (he ▸ mem_tableAddrs_self mem level t)
    have hii : i < 512 := hbound i (List.mem_cons_self i is)
    have hinotis : i ∉ is := (List.nodup_cons.mp hnd).1
    have hbound2 : ∀ j ∈ is, j < 512 := fun j hj => hbound j (List.mem_cons_of_mem i hj)
    have hnd2 : is.Nodup := (List.nodup_cons.mp hnd).2
    have hU2base : ∀ j ∈ is, m newAddr j = PTEntry.unused :=
      fun j hj => hU j (List.mem_cons_of_mem i hj)
    by_cases hu : (mem t i).isUnused = true
    · -- the entry is unused: the loop skips it
      have hstep := copyGoRun_cons_unused F level t newAddr i is m n
        (by rw [ht_mem]; exact hu)
      obtain ⟨ih1, ih2, ih3, ih4⟩ := ih m n hn hbound2 hnd2 hB hU2base
      rw [hstep]
      refine ⟨ih1, ih2, ?_, ?_⟩
      · exact fun j hj => ih3 j (fun h => hj (List.mem_cons_of_mem i h))
      · intro j hj
        rcases List.mem_cons.mp hj with rfl | hj2
        · exact Or.inl ⟨hu, (ih3 j hinotis).trans (hU j (List.mem_cons_self j is))⟩
        · exact ih4 j hj2
    · have hu2 : (mem t i).isUnused = false := eq_false_of_ne_true hu
      by_cases hcopy : (level = 4 ∧ i > 509) ∨ level = 1
      · -- verbatim copy of the entry
        have hstep := copyGoRun_cons_copy F level t newAddr i is m n
          (by rw [ht_mem]; exact hu2) hcopy
        rw [ht_mem] at hstep
        set m1 := writeEntryAt m newAddr i (mem t i) with hm1
        have hB1 : ∀ x, x ≠ newAddr → (∀ k, n0 ≤ k → k < n → x ≠ F k) →
            m1 x = mem x :=
          fun x hx hfr => (writeEntryAt_other m newAddr i _ x hx).trans (hB x hx hfr)
        have hU1 : ∀ j ∈ is, m1 newAddr j = PTEntry.unused := by
          intro j hj
          have hji : j ≠ i := fun he => hinotis (he ▸ hj)
          exact (writeEntryAt_self_other m newAddr i _ j hji).trans
            (hU j (List.mem_cons_of_mem i hj))
        obtain ⟨ih1, ih2, ih3, ih4⟩ := ih m1 n hn hbound2 hnd2 hB1 hU1
        rw [hstep]
        refine ⟨ih1, ?_, ?_, ?_⟩
        · intro x hx hfr
          exact (ih2 x hx hfr).trans (writeEntryAt_other m newAddr i _ x hx)
        · intro j hj
          have hji : j ≠ i := fun he => hj (he ▸ List.mem_cons_self i is)
          exact (ih3 j (fun h => hj (List.mem_cons_of_mem i h))).trans
            (writeEntryAt_self_other m newAddr i _ j hji)
        · intro j hj
          rcases List.mem_cons.mp hj with rfl | hj2
          · refine Or.inr (Or.inl ⟨hu2, hcopy, ?_⟩)
            exact (ih3 j hinotis).trans (writeEntryAt_self m newAddr j _)
          · exact ih4 j hj2
      · -- recursive copy of the child table
        have h49 : ¬(level = 4 ∧ i > 509) := fun h => hcopy (Or.inl h)
        have h1 : level ≠ 1 := fun h => hcopy (Or.inr h)
        obtain ⟨l2, rfl⟩ : ∃ l2, level = l2 + 2 := ⟨level - 2, by omega⟩
        have hnhu := hnh
        simp only [NoHugeTree] at hnhu
        obtain ⟨hhp, hsubnh⟩ := hnhu i hii hu2
        -- the subtree of the processed entry, and agreement of m with mem on it
        have hag : ∀ y ∈ tableAddrs mem (l2 + 1) (mem t i).addr, m y = mem y := by
          intro y hy
          have hy2 : y ∈ tableAddrs mem (l2 + 2) t :=
            tableAddrs_subtree_sub mem l2 t i hii hu2 y hy
          refine hB y (fun he => hnt (he ▸ hy2)) ?_
          intro k hk _ he
          exact hdisj k hk (he ▸ hy2)
        have hta : tableAddrs m (l2 + 1) (mem t i).addr =
            tableAddrs mem (l2 + 1) (mem t i).addr :=
          tableAddrs_congr mem m (l2 + 1) (mem t i).addr hag
        have hcs : CopySpec F (l2 + 1) := hchild h1
        obtain ⟨hc1, hc2, hc3, hc4⟩ := hcs (mem t i).addr m n
          (noHugeTree_congr mem m (l2 + 1) (mem t i).addr hag hsubnh)
          (by
            intro k hk hmem
            rw [hta] at hmem
            exact hdisj k (le_trans hn hk)
              (tableAddrs_subtree_sub mem l2 t i hii hu2 _ hmem))
        set D := deepCopyInner F (l2 + 1) (mem t i).addr m n with hD
        have hstep := copyGoRun_cons_child F (l2 + 2) t newAddr i is m n
          (by rw [ht_mem]; exact hu2) h49 h1
        rw [ht_mem] at hstep
        have h21 : l2 + 2 - 1 = l2 + 1 := rfl
        rw [h21, ← hD] at hstep
        set m2 := writeEntryAt D.2.1 newAddr i
          (PTEntry.entry D.1 (mem t i).present (mem t i).writable
            (mem t i).huge (mem t i).user) with hm2
        have hnewD : ∀ k, n ≤ k → k < D.2.2 → newAddr ≠ F k :=
          fun k hk _ => hnew k (le_trans hn hk)
        have hmcnew : D.2.1 newAddr = m newAddr := hc3 newAddr hnewD
        have hB2 : ∀ x, x ≠ newAddr → (∀ k, n0 ≤ k → k < D.2.2 → x ≠ F k) →
            m2 x = mem x := by
          intro x hx hfr
          refine ((writeEntryAt_other D.2.1 newAddr i _ x hx).trans
            (hc3 x (fun k hk1 hk2 => hfr k (le_trans hn hk1) hk2))).trans
            (hB x hx (fun k hk1 hk2 => hfr k hk1 (lt_trans hk2 hc2)))
        have hU2 : ∀ j ∈ is, m2 newAddr j = PTEntry.unused := by
          intro j hj
          have hji : j ≠ i := fun he => hinotis (he ▸ hj)
          exact ((writeEntryAt_self_other D.2.1 newAddr i _ j hji).trans
            (congrFun hmcnew j)).trans (hU j (List.mem_cons_of_mem i hj))
        obtain ⟨ih1, ih2, ih3, ih4⟩ := ih m2 D.2.2 (le_trans hn (le_of_lt hc2))
          hbound2 hnd2 hB2 hU2
        rw [hstep]
        set r := copyGoRun F (l2 + 2) t newAddr is m2 D.2.2 with hr
        have hfinn : n ≤ r.2 := le_trans (le_of_lt hc2) ih1
        refine ⟨hfinn, ?_, ?_, ?_⟩
        · -- locality of the final memory over the whole counter range
          intro x hx hfr
          have hx1 : ∀ k, D.2.2 ≤ k → k < r.2 → x ≠ F k :=
            fun k hk1 hk2 => hfr k (le_trans (le_of_lt hc2) hk1) hk2
          have hx2 : ∀ k, n ≤ k → k < D.2.2 → x ≠ F k :=
            fun k hk1 hk2 => hfr k hk1 (lt_of_lt_of_le hk2 ih1)
          exact ((ih2 x hx hx1).trans
            (writeEntryAt_other D.2.1 newAddr i _ x hx)).trans (hc3 x hx2)
        · intro j hj
          have hji : j ≠ i := fun he => hj (he ▸ List.mem_cons_self i is)
          exact ((ih3 j (fun h => hj (List.mem_cons_of_mem i h))).trans
            (writeEntryAt_self_other D.2.1 newAddr i _ j hji)).trans
            (congrFun hmcnew j)
        · intro j hj
          rcases List.mem_cons.mp hj with rfl | hj2
          · -- the freshly copied child entry
            refine Or.inr (Or.inr ⟨hu2, h49, h1, n, le_refl n,
              lt_of_lt_of_le hc2 ih1, ?_, ?_⟩)
            · rw [ih3 j hinotis, hm2, writeEntryAt_self, hc1]
            · intro mem3 hag3 hfr3 idxs hidx
              have hagm : ∀ y ∈ tableAddrs m (l2 + 1) (mem t j).addr,
                  mem3 y = m y := by
                rw [hta]
                intro y hy
                exact (hag3 y hy).trans (hag y hy).symm
              have hfrm : ∀ k2, n ≤ k2 → k2 < D.2.2 → mem3 (F k2) = D.2.1 (F k2) := by
                intro k2 hk2a hk2b
                have hFne : F k2 ≠ newAddr :=
                  fun he => hnew k2 (le_trans hn hk2a) he.symm
                have hfr3k : mem3 (F k2) = r.1 (F k2) :=
                  hfr3 k2 hk2a (lt_of_lt_of_le hk2b ih1)
                have hr1k : r.1 (F k2) = m2 (F k2) := by
                  refine ih2 (F k2) hFne ?_
                  intro k3 hk3a hk3b he
                  have := hF he
                  omega
                have hm2k : m2 (F k2) = D.2.1 (F k2) :=
                  writeEntryAt_other D.2.1 newAddr j _ (F k2) hFne
                exact (hfr3k.trans hr1k).trans hm2k
              have hres := hc4 mem3 hagm hfrm idxs hidx
              refine hres.trans ?_
              exact resolveFrom_congr mem m (l2 + 1) (mem t j).addr idxs hag hidx
          · exact entrySpec_mono F mem r.1 (l2 + 2) t newAddr D.2.2 r.2 n r.2 j
              (le_of_lt hc2) (le_refl r.2) (ih4 j hj2)

theorem copySpec_step (F : Nat → Nat) (hF : Function.Injective F)
    (l : Nat) (hchild : l + 1 ≠ 1 → CopySpec F (l + 1 - 1)) :
    CopySpec F (l + 1) := by
  intro t mem n hnh hdisj
  have hnt : F n ∉ tableAddrs mem (l + 1) t := hdisj n (le_refl n)
  have hdisj2 : ∀ k, n + 1 ≤ k → F k ∉ tableAddrs mem (l + 1) t :=
    fun k hk => hdisj k (by omega)
  have hnew : ∀ k, n + 1 ≤ k → F n ≠ F k := by
    intro k hk he
    have := hF he
    omega
  have hB0 : ∀ x, x ≠ F n → (∀ k, n + 1 ≤ k → k < n + 1 → x ≠ F k) →
      Function.update mem (F n) emptyTable x = mem x :=
    fun x hx _ => Function.update_noteq hx _ _
  have hU0 : ∀ i ∈ List.range 512,
      Function.update mem (F n) emptyTable (F n) i = PTEntry.unused := by
    intro i _
    rw [Function.update_same]
    rfl
  obtain ⟨g1, g2, g3, g4⟩ := copyGo_spec F hF (l + 1) t (F n) mem (n + 1)
    hchild (by omega) hnh hdisj2 hnt hnew (List.range 512)
    (Function.update mem (F n) emptyTable) (n + 1)
    (le_refl (n + 1)) (fun j hj => List.mem_range.mp hj) (List.nodup_range 512)
    hB0 hU0
  rw [deepCopyInner_succ]
  set R := copyGoRun F (l + 1) t (F n) (List.range 512)
    (Function.update mem (F n) emptyTable) (n + 1) with hR
  have hlt : n < R.2 := by
    have := g1
    omega
  refine ⟨rfl, hlt, ?_, ?_⟩
  · intro x hfr
    have hxFn : x ≠ F n := hfr n (le_refl n) hlt
    refine (g2 x hxFn ?_).trans (Function.update_noteq hxFn _ _)
    intro k hk1 hk2
    exact hfr k (by omega) hk2
  · intro mem2 hag hfr idxs hidx
    refine entrySpec_resolution F mem mem2 R.1 (l + 1) t (F n) (n + 1) R.2
      hnh (fun i hi => g4 i (List.mem_range.mpr hi)) hag ?_ ?_ idxs hidx
    · exact fun k hk1 hk2 => hfr k (by omega) hk2
    · exact hfr n (le_refl n) hlt

theorem copySpec_succ (F : Nat → Nat) (hF : Function.Injective F) :
    ∀ l, CopySpec F (l + 1) := by
  intro l
  induction l with
  | zero => exact copySpec_step F hF 0 (fun h => absurd rfl h)
  | succ l ihl => exact copySpec_step F hF (l + 1) (fun _ => ihl)

theorem vaddrIndices_bound (va : Nat) : ∀ j ∈ vaddrIndices va, j < 512 := by
  intro j hj
  simp only [vaddrIndices, List.mem_cons, List.not_mem_nil, or_false] at hj
  rcases hj with h | h | h | h <;>
    (subst h; exact Nat.mod_lt _ (by norm_num))

/-- C4 (amended): with a fresh, non-aliasing frame stream and a source tree
free of huge-page leaves, `deep_copy` returns a fresh top-level table
distinct from the source root, every virtual address resolves through the
copy to the same leaf frame as in the source, and the level-4 entries above
index 509 (the kernel half) are copied verbatim.  The huge-free hypothesis
is necessary: `deep_copy_inner` recurses into any used entry without
checking the huge flag, so a huge 2 MiB/1 GiB leaf is re-pointed at a fresh
frame in the copy (see the counterexample). -/
theorem deep_copy_preserves_resolution
    (F : Nat → Nat) (mem : Memory) (root n : Nat)
    (hF : Function.Injective F)
    (hdisj : ∀ k, n ≤ k → F k ∉ tableAddrs mem 4 root)
    (hnh : NoHugeTree mem 4 root) :
    (deepCopy F mem root n).1 = F n ∧
    (deepCopy F mem root n).1 ≠ root ∧
    (∀ va, resolveFrom (deepCopy F mem root n).2.1 4 (deepCopy F mem root n).1
        (vaddrIndices va) = resolveFrom mem 4 root (vaddrIndices va)) ∧
    (∀ i, 509 < i → i < 512 →
      (deepCopy F mem root n).2.1 (deepCopy F mem root n).1 i = mem root i) := by
  have hnt : F n ∉ tableAddrs mem 4 root := hdisj n (le_refl n)
  have hdisj2 : ∀ k, n + 1 ≤ k → F k ∉ tableAddrs mem 4 root :=
    fun k hk => hdisj k (by omega)
  have hnew : ∀ k, n + 1 ≤ k → F n ≠ F k := by
    intro k hk he
    have := hF he
    omega
  have hB0 : ∀ x, x ≠ F n → (∀ k, n + 1 ≤ k → k < n + 1 → x ≠ F k) →
      Function.update mem (F n) emptyTable x = mem x :=
    fun x hx _ => Function.update_noteq hx _ _
  have hU0 : ∀ i ∈ List.range 512,
      Function.update mem (F n) emptyTable (F n) i = PTEntry.unused := by
    intro i _
    rw [Function.update_same]
    rfl
  obtain ⟨g1, g2, g3, g4⟩ := copyGo_spec F hF 4 root (F n) mem (n + 1)
    (fun _ => copySpec_succ F hF 2) (by omega) hnh hdisj2 hnt hnew
    (List.range 512) (Function.update mem (F n) emptyTable) (n + 1)
    (le_refl (n + 1)) (fun j hj => List.mem_range.mp hj) (List.nodup_range 512)
    hB0 hU0
  have hDC : deepCopy F mem root n =
      (F n, copyGoRun F 4 root (F n) (List.range 512)
        (Function.update mem (F n) emptyTable) (n + 1)) :=
    deepCopyInner_succ F 3 root mem n
  rw [hDC]
  set R := copyGoRun F 4 root (F n) (List.range 512)
    (Function.update mem (F n) emptyTable) (n + 1) with hR
  have hag : ∀ y, y ∈ tableAddrs mem 4 root → R.1 y = mem y := by
    intro y hy
    have hyn : y ≠ F n := fun he => hnt (he ▸ hy)
    refine (g2 y hyn ?_).trans (Function.update_noteq hyn _ _)
    intro k hk1 hk2 he
    exact hdisj2 k hk1 (he ▸ hy)
  refine ⟨rfl, ?_, ?_, ?_⟩
  · intro he
    exact hnt (he ▸ mem_tableAddrs_self mem 4 root)
  · intro va
    exact entrySpec_resolution F mem R.1 R.1 4 root (F n) (n + 1) R.2
      hnh (fun i hi => g4 i (List.mem_range.mpr hi)) hag
      (fun k hk1 hk2 => rfl) rfl (vaddrIndices va) (vaddrIndices_bound va)
  · intro i hi1 hi2
    rcases g4 i (List.mem_range.mpr hi2) with ⟨hu, hv⟩ | ⟨hu, hc, hv⟩ |
        ⟨hu, h49, hne1, rest⟩
    · rw [hv, (isUnused_eq_true_iff _).mp hu]
    · exact hv
    · exact absurd ⟨rfl, hi1⟩ h49

theorem writable_entry (a : Nat) (p w h u : Bool) :
    (PTEntry.entry a p w h u).writable = w := rfl

theorem user_entry (a : Nat) (p w h u : Bool) :
    (PTEntry.entry a p w h u).user = u := rfl

theorem tableAddrs_lt (mem : Memory) (B : Nat)
    (hmem : ∀ a i, (mem a i).addr < B) :
    ∀ level t, t < B → ∀ y ∈ tableAddrs mem level t, y < B
  | 0, t, ht, y, hy => by
    simp only [tableAddrs, List.mem_singleton] at hy
    exact hy ▸ ht
  | 1, t, ht, y, hy => by
    simp only [tableAddrs, List.mem_singleton] at hy
    exact hy ▸ ht
  | (l + 2), t, ht, y, hy => by
    simp only [tableAddrs, List.mem_cons, List.mem_flatMap, List.mem_range] at hy
    rcases hy with rfl | ⟨i, hi, hyi⟩
    · exact ht
    · by_cases hu : (mem t i).isUnused
      · rw [if_pos hu] at hyi
        exact absurd hyi (List.not_mem_nil y)
      · rw [if_neg hu] at hyi
        exact tableAddrs_lt mem B hmem (l + 1) (mem t i).addr (hmem t i) y hyi

theorem noHugeTree_of_no_huge (mem : Memory)
    (h : ∀ a i, (mem a i).huge = false) :
    ∀ level t, NoHugeTree mem level t
  | 0, _ => trivial
  | 1, _ => trivial
  | (l + 2), t => by
    intro i hi hu
    exact ⟨by simp [h], noHugeTree_of_no_huge mem h (l + 1) (mem t i).addr⟩

theorem copyGoRun_unused_list (F : Nat → Nat) (level t newAddr : Nat) :
    ∀ is (m : Memory) n, (∀ i ∈ is, (m t i).isUnused = true) →
    copyGoRun F level t newAddr is m n = (m, n)
  | [], m, n, _ => rfl
  | i :: is, m, n, h => by
    rw [copyGoRun_cons_unused F level t newAddr i is m n
      (h i (List.mem_cons_self i is))]
    exact copyGoRun_unused_list F level t newAddr is m n
      (fun j hj => h j (List.mem_cons_of_mem i hj))

theorem deep_copy_preserves_resolution_witness :
    (deepCopy c4F c5Mem 100 0).1 ≠ 100 ∧
    resolveFrom (deepCopy c4F c5Mem 100 0).2.1 4 (deepCopy c4F c5Mem 100 0).1
      (vaddrIndices 0) = resolveFrom c5Mem 4 100 (vaddrIndices 0) ∧
    resolveFrom c5Mem 4 100 (vaddrIndices 0) = some (0x5000, false) := by
  have haddr : ∀ a i, (c5Mem a i).addr < 0x10000 := by
    intro a i
    simp only [c5Mem]
    split_ifs <;> norm_num [PTEntry.addr]
  have hhuge : ∀ a i, (c5Mem a i).huge = false := by
    intro a i
    simp only [c5Mem]
    split_ifs <;> rfl
  have hF : Function.Injective c4F := by
    intro a b h
    simp only [c4F] at h
    omega
  have hdisj : ∀ k, 0 ≤ k → c4F k ∉ tableAddrs c5Mem 4 100 := by
    intro k _ hmem
    have hlt := tableAddrs_lt c5Mem 0x10000 haddr 4 100 (by norm_num) _ hmem
    simp only [c4F] at hlt
    omega
  have h := deep_copy_preserves_resolution c4F c5Mem 100 0 hF hdisj
    (noHugeTree_of_no_huge c5Mem hhuge 4 100)
  exact ⟨h.2.1, h.2.2.1 0, by decide⟩

theorem deep_copy_repoints_huge_frame :
    resolveFrom c4HugeMem 4 100 (vaddrIndices 0) = some (0x200000, true) ∧
    resolveFrom (deepCopy c4F c4HugeMem 100 0).2.1 4
      (deepCopy c4F c4HugeMem 100 0).1 (vaddrIndices 0) = some (0x11000, true) := by
  have hF0 : c4F 0 = 0x10000 := by norm_num [c4F]
  have hF1 : c4F 1 = 0x11000 := by norm_num [c4F]
  have hsplit : List.range 512 = 0 :: List.map Nat.succ (List.range 511) :=
    List.range_succ_eq_map 511
  refine ⟨by decide, ?_⟩
  set m0 := Function.update c4HugeMem 0x10000 emptyTable with hm0
  have hZ : ∀ x, x ≠ 0x10000 → m0 x = c4HugeMem x :=
    fun x hx => Function.update_noteq hx _ _
  have hall : ∀ i ∈ List.range 512,
      ((Function.update m0 0x11000 emptyTable) 0x200000 i).isUnused = true := by
    intro i _
    rw [Function.update_noteq (by norm_num : (0x200000 : Nat) ≠ 0x11000)]
    rw [hZ 0x200000 (by norm_num)]
    simp [c4HugeMem, PTEntry.isUnused]
  have hchild : deepCopyInner c4F 3 0x200000 m0 1 =
      (0x11000, Function.update m0 0x11000 emptyTable, 2) := by
    rw [deepCopyInner_succ c4F 2 0x200000 m0 1, hF1]
    show (0x11000, copyGoRun c4F 3 0x200000 0x11000 (List.range 512)
      (Function.update m0 0x11000 emptyTable) 2) = _
    rw [copyGoRun_unused_list c4F 3 0x200000 0x11000 (List.range 512) _ 2 hall]
  have he0 : m0 100 0 = PTEntry.entry 0x200000 true true true false := by
    rw [hZ 100 (by norm_num)]
    simp [c4HugeMem]
  have htail : ∀ i ∈ List.map Nat.succ (List.range 511),
      ((writeEntryAt (Function.update m0 0x11000 emptyTable) 0x10000 0
        (PTEntry.entry 0x11000 true true true false)) 100 i).isUnused = true := by
    intro i hi
    obtain ⟨j, hj, rfl⟩ := List.mem_map.mp hi
    rw [writeEntryAt_other _ _ _ _ 100 (by norm_num)]
    rw [Function.update_noteq (by norm_num : (100 : Nat) ≠ 0x11000)]
    rw [hZ 100 (by norm_num)]
    simp [c4HugeMem, PTEntry.isUnused]
  have hmain : deepCopy c4F c4HugeMem 100 0 =
      (0x10000, writeEntryAt (Function.update m0 0x11000 emptyTable) 0x10000 0
        (PTEntry.entry 0x11000 true true true false), 2) := by
    show deepCopyInner c4F 4 100 c4HugeMem 0 = _
    rw [deepCopyInner_succ c4F 3 100 c4HugeMem 0, hF0, ← hm0]
    show (0x10000, copyGoRun c4F 4 100 0x10000 (List.range 512) m0 1) = _
    rw [hsplit]
    rw [copyGoRun_cons_child c4F 4 100 0x10000 0 (List.map Nat.succ (List.range 511))
      m0 1 (by rw [he0]; rfl) (by norm_num) (by norm_num)]
    rw [he0, addr_entry, present_entry, writable_entry, huge_entry, user_entry]
    show (0x10000, copyGoRun c4F 4 100 0x10000 (List.map Nat.succ (List.range 511))
      (writeEntryAt (deepCopyInner c4F 3 0x200000 m0 1).2.1 0x10000 0
        (PTEntry.entry (deepCopyInner c4F 3 0x200000 m0 1).1 true true true false))
      (deepCopyInner c4F 3 0x200000 m0 1).2.2) = _
    rw [hchild]
    show (0x10000, copyGoRun c4F 4 100 0x10000 (List.map Nat.succ (List.range 511))
      (writeEntryAt (Function.update m0 0x11000 emptyTable) 0x10000 0
        (PTEntry.entry 0x11000 true true true false)) 2) = _
    rw [copyGoRun_unused_list c4F 4 100 0x10000 _ _ 2 htail]
  rw [hmain]
  rfl

/-! ## C2: unmap and frame return -/

theorem chainOk_congr (mem mem2 : Memory) (idxs : List Nat) :
    ∀ prev lvl c, (∀ q ∈ prev, mem2 q = mem q) →
    chainOk mem idxs lvl c prev → chainOk mem2 idxs lvl c prev
  | [], _, _, _, _ => trivial
  | p :: rest, lvl, c, h, hch => by
    simp only [chainOk] at hch ⊢
    obtain ⟨hu, ha, hrest⟩ := hch
    rw [h p (List.mem_cons_self p rest)]
    exact ⟨hu, ha, chainOk_congr mem mem2 idxs rest (lvl + 1) p
      (fun q hq => h q (List.mem_cons_of_mem p hq)) hrest⟩

theorem cleanupLoop_succ (mem : Memory) (pmm : PhysicalMemoryManager)
    (fuel : Nat) (m : Mapper) :
    cleanupLoop mem pmm (fuel + 1) m =
      if currentIsEmpty mem m then
        match m.ascendOp with
        | Except.error _ => Except.ok (mem, pmm, m)
        | Except.ok m2 =>
          match m2.unmapNext mem with
          | Except.error e => Except.error e
          | Except.ok (f, mem2) => cleanupLoop mem2 (pmmReleaseFrame pmm f) fuel m2
      else Except.ok (mem, pmm, m) := rfl

theorem cleanupLoop_spec :
    ∀ (prev : List Nat) (mem : Memory) (pmm : PhysicalMemoryManager)
      (va lvl c : Nat) (idxs : List Nat),
    chainOk mem idxs lvl c prev →
    (c :: prev).Nodup →
    ∃ D mem2 mp,
      cleanupLoop mem pmm (prev.length + 1)
        { addr := va, indices := idxs, currentLevel := lvl,
          currentPtr := c, prevPtrs := prev } =
        Except.ok (mem2,
          { pmm with frames := ⟨D ++ pmm.frames.frames⟩ }, mp) ∧
      D ⊆ c :: prev := by
  intro prev
  induction prev with
  | nil =>
    intro mem pmm va lvl c idxs _ _
    refine ⟨[], mem, ⟨va, idxs, lvl, c, []⟩, ?_, List.nil_subset _⟩
    rw [cleanupLoop_succ]
    by_cases hemp : currentIsEmpty mem
        { addr := va, indices := idxs, currentLevel := lvl,
          currentPtr := c, prevPtrs := [] } = true
    · rw [if_pos hemp]
      rfl
    · rw [if_neg hemp]
      rfl
  | cons p rest ih =>
    intro mem pmm va lvl c idxs hch hnd
    simp only [chainOk] at hch
    obtain ⟨hu, ha, hrest⟩ := hch
    have hpnotrest : p ∉ rest := (List.nodup_cons.mp (List.nodup_cons.mp hnd).2).1
    by_cases hemp : currentIsEmpty mem
        { addr := va, indices := idxs, currentLevel := lvl,
          currentPtr := c, prevPtrs := p :: rest } = true
    · -- the table is empty: ascend to p, clear its entry, free c, recurse
      have hch2 : chainOk (writeEntryAt mem p (idxs.getD (4 - (lvl + 1)) 0)
          PTEntry.unused) idxs (lvl + 1) p rest := by
        refine chainOk_congr mem _ idxs rest (lvl + 1) p ?_ hrest
        intro q hq
        exact writeEntryAt_other mem p _ PTEntry.unused q
          (fun he => hpnotrest (he ▸ hq))
      have hnd2 : (p :: rest).Nodup := (List.nodup_cons.mp hnd).2
      obtain ⟨D2, mem3, mp, heq, hsub⟩ :=
        ih (writeEntryAt mem p (idxs.getD (4 - (lvl + 1)) 0) PTEntry.unused)
          (pmmReleaseFrame pmm c) va (lvl + 1) p idxs hch2 hnd2
      refine ⟨D2 ++ [c], mem3, mp, ?_, ?_⟩
      · simp only [List.length_cons]
        rw [cleanupLoop_succ, if_pos hemp]
        dsimp only [Mapper.ascendOp, Mapper.unmapNext, Mapper.nextEntry,
          Mapper.nextIndex]
        rw [if_neg (ne_true_of_eq_false2 hu), ha]
        dsimp only
        rw [heq]
        rw [List.append_assoc]
        rfl
      · intro x hx
        rcases List.mem_append.mp hx with hx2 | hx2
        · exact List.mem_cons_of_mem c (hsub hx2)
        · rw [List.mem_singleton.mp hx2]
          exact List.mem_cons_self c _
    · refine ⟨[], mem, ⟨va, idxs, lvl, c, p :: rest⟩, ?_, List.nil_subset _⟩
      simp only [List.length_cons]
      rw [cleanupLoop_succ, if_neg hemp]
      rfl

theorem unmapWalk_succ (mem : Memory) (fuel : Nat) (m : Mapper) :
    unmapWalk mem (fuel + 1) m =
      match m.advance mem with
      | Except.error MapError.bottomLevel => Except.ok m
      | Except.error (MapError.hugeFrame _) => Except.ok m
      | Except.ok m2 => unmapWalk mem fuel m2
      | Except.error _ => Except.error MapError.notPresent := rfl

theorem mapperUnmap_page_spec (mem : Memory) (pmm : PhysicalMemoryManager)
    (va root A3 A2 A1 f : Nat) (i4 i3 i2 i1 : Nat)
    (p4 w4 u4 p3 w3 u3 p2 w2 u2 p1 w1 hg1 u1 : Bool)
    (hidx : vaddrIndices va = [i4, i3, i2, i1])
    (h4 : mem root i4 = PTEntry.entry A3 p4 w4 false u4)
    (h3 : mem A3 i3 = PTEntry.entry A2 p3 w3 false u3)
    (h2 : mem A2 i2 = PTEntry.entry A1 p2 w2 false u2)
    (h1 : mem A1 i1 = PTEntry.entry f p1 w1 hg1 u1)
    (hnd : [A1, A2, A3, root].Nodup) :
    ∃ D mem2,
      mapperUnmap mem pmm va root true =
        Except.ok (f, mem2, { pmm with frames := ⟨D ++ pmm.frames.frames⟩ }) ∧
      D ⊆ [A1, A2, A3, root] := by
  have hA1A2 : A1 ≠ A2 := fun he => by simp [he] at hnd
  have hA1A3 : A1 ≠ A3 := fun he => by simp [he] at hnd
  have hA1r : A1 ≠ root := fun he => by simp [he] at hnd
  have hadv4 : Mapper.advance mem
      { addr := va, indices := [i4, i3, i2, i1], currentLevel := 4,
        currentPtr := root, prevPtrs := [] } =
      Except.ok { addr := va, indices := [i4, i3, i2, i1], currentLevel := 3,
                  currentPtr := A3, prevPtrs := [root] } := by
    simp [Mapper.advance, Mapper.nextEntry, Mapper.nextIndex, h4,
      isUnused_entry, huge_entry, present_entry, addr_entry]
  have hadv3 : Mapper.advance mem
      { addr := va, indices := [i4, i3, i2, i1], currentLevel := 3,
        currentPtr := A3, prevPtrs := [root] } =
      Except.ok { addr := va, indices := [i4, i3, i2, i1], currentLevel := 2,
                  currentPtr := A2, prevPtrs := [A3, root] } := by
    simp [Mapper.advance, Mapper.nextEntry, Mapper.nextIndex, h3,
      isUnused_entry, huge_entry, present_entry, addr_entry]
  have hadv2 : Mapper.advance mem
      { addr := va, indices := [i4, i3, i2, i1], currentLevel := 2,
        currentPtr := A2, prevPtrs := [A3, root] } =
      Except.ok { addr := va, indices := [i4, i3, i2, i1], currentLevel := 1,
                  currentPtr := A1, prevPtrs := [A2, A3, root] } := by
    simp [Mapper.advance, Mapper.nextEntry, Mapper.nextIndex, h2,
      isUnused_entry, huge_entry, present_entry, addr_entry]
  have hadv1 : Mapper.advance mem
      { addr := va, indices := [i4, i3, i2, i1], currentLevel := 1,
        currentPtr := A1, prevPtrs := [A2, A3, root] } =
      Except.error MapError.bottomLevel := by
    simp [Mapper.advance]
  have hnew : Mapper.new va root =
      { addr := va, indices := [i4, i3, i2, i1],
        currentLevel := 4, currentPtr := root, prevPtrs := [] } := by
    simp [Mapper.new, hidx]
  have hwalk : unmapWalk mem 4 (Mapper.new va root) = Except.ok
      { addr := va, indices := [i4, i3, i2, i1], currentLevel := 1,
          currentPtr := A1, prevPtrs := [A2, A3, root] } := by
    rw [hnew]
    rw [unmapWalk_succ, hadv4]
    dsimp only
    rw [unmapWalk_succ, hadv3]
    dsimp only
    rw [unmapWalk_succ, hadv2]
    dsimp only
    rw [unmapWalk_succ, hadv1]
  have hun : Mapper.unmapNext mem
      { addr := va, indices := [i4, i3, i2, i1],
        currentLevel := 1, currentPtr := A1, prevPtrs := [A2, A3, root] } =
      Except.ok (f, writeEntryAt mem A1 i1 PTEntry.unused) := by
    simp [Mapper.unmapNext, Mapper.nextEntry, Mapper.nextIndex, h1,
      isUnused_entry, addr_entry]
  have hch : chainOk (writeEntryAt mem A1 i1 PTEntry.unused)
      [i4, i3, i2, i1] 1 A1 [A2, A3, root] := by
    simp only [chainOk]
    rw [show ([i4, i3, i2, i1].getD (4 - (1 + 1)) 0 : Nat) = i2 from rfl,
      show ([i4, i3, i2, i1].getD (4 - (2 + 1)) 0 : Nat) = i3 from rfl,
      show ([i4, i3, i2, i1].getD (4 - (3 + 1)) 0 : Nat) = i4 from rfl]
    rw [writeEntryAt_other mem A1 i1 PTEntry.unused A2 hA1A2.symm,
      writeEntryAt_other mem A1 i1 PTEntry.unused A3 hA1A3.symm,
      writeEntryAt_other mem A1 i1 PTEntry.unused root hA1r.symm]
    rw [h2, h3, h4]
    simp [isUnused_entry, addr_entry]
  obtain ⟨D, mem3, mp, hclean, hsub⟩ := cleanupLoop_spec [A2, A3, root]
    (writeEntryAt mem A1 i1 PTEntry.unused) pmm va 1 A1 [i4, i3, i2, i1]
    hch hnd
  refine ⟨D, mem3, ?_, hsub⟩
  rw [mapperUnmap, hwalk]
  dsimp only
  rw [hun]
  dsimp only
  rw [if_pos rfl]
  rw [hclean]

/-- C2 (amended): after `release_region` or `remove_all` takes a mapping
out of the set, `Arc::try_unwrap` gates the unmap: with another address
space still holding the mapping (`rc ≥ 2`, e.g. a shared COW mapping) no
frame moves and memory is untouched.  With the sole reference, for a
single-page mapping whose page walks through used non-huge entries to leaf
frame `f`: a KernelData or Identity mapping returns `f` to the PMM; an
MMIO mapping never returns `f` (only emptied page-table frames of the walk
path are freed); but a KernelCode (or Empty) mapping panics in
`Mapping::unmap` (`_ => panic!("Unmapped unsupported memory type")`)
instead of returning its frames, contradicting the claim's
KernelData/KernelCode/Identity grouping. -/
theorem release_region_frames (m : Mapping) (root va A3 A2 A1 f : Nat)
    (i4 i3 i2 i1 : Nat) (mem : Memory) (pmm : PhysicalMemoryManager)
    (p4 w4 u4 p3 w3 u3 p2 w2 u2 p1 w1 hg1 u1 : Bool)
    (hsize : m.sizePages = 1) (hhuge : m.isHuge = false) (hstart : m.start = va)
    (hidx : vaddrIndices va = [i4, i3, i2, i1])
    (h4 : mem root i4 = PTEntry.entry A3 p4 w4 false u4)
    (h3 : mem A3 i3 = PTEntry.entry A2 p3 w3 false u3)
    (h2 : mem A2 i2 = PTEntry.entry A1 p2 w2 false u2)
    (h1 : mem A1 i1 = PTEntry.entry f p1 w1 hg1 u1)
    (hnd : [A1, A2, A3, root].Nodup) :
    (∀ rc, 2 ≤ rc → releaseMapping rc m root mem pmm = some (mem, pmm)) ∧
    (m.kind = MappingType.kernelCode ∨ m.kind = MappingType.empty →
      releaseMapping 1 m root mem pmm = none) ∧
    (m.kind = MappingType.kernelData ∨ (∃ x, m.kind = MappingType.identity x) →
      ∃ mem2 pmm2, releaseMapping 1 m root mem pmm = some (mem2, pmm2) ∧
        f ∈ pmm2.frames.frames) ∧
    (∀ x, m.kind = MappingType.mmio x → f ∉ pmm.frames.frames →
      f ∉ [A1, A2, A3, root] →
      ∃ mem2 pmm2, releaseMapping 1 m root mem pmm = some (mem2, pmm2) ∧
        f ∉ pmm2.frames.frames) := by
  have hpl : m.pageList = [va] := by
    rw [Mapping.pageList, hhuge, if_neg (by simp)]
    rw [Mapping.pages, hsize, hstart]
    rw [show List.range 1 = [0] from rfl]
    simp
  obtain ⟨D, memX, hmap, hsub⟩ := mapperUnmap_page_spec mem pmm va root A3 A2
    A1 f i4 i3 i2 i1 p4 w4 u4 p3 w3 u3 p2 w2 u2 p1 w1 hg1 u1
    hidx h4 h3 h2 h1 hnd
  refine ⟨?_, ?_, ?_, ?_⟩
  · intro rc hrc
    rw [releaseMapping, if_neg (by omega)]
  · intro hk
    rw [releaseMapping, if_pos rfl, mappingUnmap, hpl]
    simp only [mappingUnmapGo]
    rw [hmap]
    rcases hk with hk | hk <;> rw [hk]
  · intro hk
    have hgo : releaseMapping 1 m root mem pmm = some (memX,
        pmmReleaseFrame { pmm with frames := ⟨D ++ pmm.frames.frames⟩ } f) := by
      rw [releaseMapping, if_pos rfl, mappingUnmap, hpl]
      simp only [mappingUnmapGo]
      rw [hmap]
      rcases hk with hk | ⟨x, hk⟩ <;> rw [hk]
    refine ⟨memX, _, hgo, ?_⟩
    simp [pmmReleaseFrame, FrameStack.free]
  · intro x hk hfpmm hfpath
    refine ⟨memX, { pmm with frames := ⟨D ++ pmm.frames.frames⟩ }, ?_, ?_⟩
    · rw [releaseMapping, if_pos rfl, mappingUnmap, hpl]
      simp only [mappingUnmapGo]
      rw [hmap, hk]
    · intro hmem
      rcases List.mem_append.mp hmem with h | h
      · exact hfpath (hsub h)
      · exact hfpmm h

theorem release_region_frames_witness :
    releaseMapping 2 c2KdMapping 100 c5Mem twoFramePmm =
      some (c5Mem, twoFramePmm) ∧
    (∃ mem2 pmm2, releaseMapping 1 c2KdMapping 100 c5Mem twoFramePmm =
      some (mem2, pmm2) ∧ 0x5000 ∈ pmm2.frames.frames) := by
  have h := release_region_frames c2KdMapping 100 0 200 300 400 0x5000
    0 0 0 0 c5Mem twoFramePmm
    true true false true true false true true false true true false false
    rfl (by decide) rfl (by decide) (by decide) (by decide) (by decide)
    (by decide) (by decide)
  exact ⟨h.1 2 (by norm_num), h.2.2.1 (Or.inl rfl)⟩

theorem kernel_code_unmap_panics :
    releaseMapping 1 c2KcMapping 100 c5Mem twoFramePmm = none := by
  obtain ⟨D, memX, hmap, hsub⟩ := mapperUnmap_page_spec c5Mem twoFramePmm
    0 100 200 300 400 0x5000 0 0 0 0
    true true false true true false true true false true true false false
    (by decide) (by decide) (by decide) (by decide) (by decide) (by decide)
  rw [releaseMapping, if_pos rfl, mappingUnmap]
  rw [show c2KcMapping.pageList = [0] from by decide]
  simp only [mappingUnmapGo]
  rw [hmap]
  rfl

/-! ## C1: the ELF segment loader -/

theorem getD_map_range {α : Type u} (f : Nat → α) (n k : Nat) (d : α)
    (hk : k < n) : ((List.range n).map f).getD k d = f k := by
  rw [List.getD_eq_getElem?_getD, List.getElem?_map, List.getElem?_range hk]
  rfl

/-- C1 (amended): for a Load header the loader maps
`ceil(mem_size / PAGE) + crosses_page_boundary` pages (not
`ceil((mem_size + crosses) / PAGE)`), and the byte writes are: with a
nonzero virtual address, `mem_size > file_size` panics on the destination
re-slice, and otherwise exactly `mem_size` bytes (not `file_size`) are
copied from file offset with no zero padding; with the null virtual
address, `mem_size` bytes are copied and then `file_size` zero bytes (not
`mem_size - file_size`) are written immediately after them when
`mem_size > file_size`. -/
theorem elf_load_segment (h : ProgHeader) (data : List Nat) :
    (h.vaddr ≠ 0 → h.memSize > h.fileSize →
      loadSegmentWrites h data = none) ∧
    (h.vaddr ≠ 0 → h.memSize ≤ h.fileSize →
      h.offset + h.memSize ≤ data.length →
      ∃ ws, loadSegmentWrites h data = some ws ∧
        ws.length = h.memSize ∧
        ∀ k, k < h.memSize →
          ws.getD k (0, 0) = (h.vaddr + k, data.getD (h.offset + k) 0)) ∧
    (h.vaddr = 0 → h.offset + h.memSize ≤ data.length →
      h.memSize > h.fileSize →
      ∃ ws, loadSegmentWrites h data = some ws ∧
        ws.length = h.memSize + h.fileSize ∧
        (∀ k, k < h.memSize →
          ws.getD k (0, 0) = (k, data.getD (h.offset + k) 0)) ∧
        (∀ k, k < h.fileSize →
          ws.getD (h.memSize + k) (0, 0) = (h.memSize + k, 0))) := by
  refine ⟨?_, ?_, ?_⟩
  · intro hv hms
    rw [loadSegmentWrites]
    rw [if_neg hv, if_pos hms]
  · intro hv hms hlen
    rw [loadSegmentWrites]
    rw [if_neg hv, if_neg (by omega), if_neg (by omega)]
    refine ⟨_, rfl, ?_, ?_⟩
    · rw [List.length_map, List.length_range]
    · intro k hk
      exact getD_map_range _ _ _ _ hk
  · intro hv hlen hms
    rw [loadSegmentWrites]
    rw [if_pos hv, if_neg (by omega), if_pos hms]
    refine ⟨_, rfl, ?_, ?_, ?_⟩
    · rw [List.length_append, List.length_map, List.length_range,
        List.length_map, List.length_range]
    · intro k hk
      rw [List.getD_append _ _ _ _ (by
        rw [List.length_map, List.length_range]
        exact hk)]
      rw [getD_map_range _ _ _ _ hk, hv]
      simp
    · intro k hk
      rw [List.getD_append_right _ _ _ _ (by
        rw [List.length_map, List.length_range]
        omega)]
      rw [List.length_map, List.length_range]
      rw [show h.memSize + k - h.memSize = k from by omega]
      rw [getD_map_range _ _ _ _ hk, hv]
      simp

theorem elf_load_segment_witness :
    ∃ ws, loadSegmentWrites
        { vaddr := 0x1000, memSize := 2, fileSize := 2, offset := 1 }
        [7, 8, 9] = some ws ∧
      ws.length = 2 ∧
      ∀ k, k < 2 → ws.getD k (0, 0) =
        (0x1000 + k, [7, 8, 9].getD (1 + k) 0) := by
  exact (elf_load_segment
    { vaddr := 0x1000, memSize := 2, fileSize := 2, offset := 1 }
    [7, 8, 9]).2.1 (by decide) (by decide) (by decide)

theorem elf_pages_formula_differs :
    elfPages { vaddr := 0xFF0, memSize := 0x20, fileSize := 0x20,
               offset := 0 } = 2 ∧
    (0x20 + crossesPageBoundary { vaddr := 0xFF0, memSize := 0x20,
                                  fileSize := 0x20, offset := 0 } +
      (PAGE_SIZE - 1)) / PAGE_SIZE = 1 := by
  decide

/-! ## C7: mprotect -/

theorem lor_ne_zero_right (x y : Nat) (hy : y ≠ 0) : x ||| y ≠ 0 := by
  intro h
  rcases Nat.exists_most_significant_bit hy with ⟨i, hi, _⟩
  have h2 : (x ||| y).testBit i = true := by
    rw [Nat.testBit_lor, hi, Bool.or_true]
  rw [h] at h2
  simp [Nat.zero_testBit] at h2

/-- C7 (amended): with a mapping found for the address, mprotect returns
NoMem and leaves the mapping set unchanged when the page count differs
from the mapping's; with matching counts, flag bits 1 flip the mapping to
readable, non-writable, non-executable and flag bits 3 to readable,
writable, non-executable, both succeeding; any other flag bits except 5
give InvalidFlags with no change; but flag bits 5 (executable) do not flip
the mapping and succeed - `Mapping::executable` ends in `todo!("NX bit")`
and panics. -/
theorem mprotect_spec (ms : List Mapping) (m : Mapping)
    (addr pages flags : Nat)
    (hfind : mappingContaining ms addr = some m) :
    (m.sizePages ≠ pages → mprotect ms addr pages flags =
      some (ms, Except.error SyscallErr.noMem)) ∧
    (m.sizePages = pages → flags &&& 0b111 = 1 →
      mprotect ms addr pages flags =
        some (replaceMapping ms m m.readOnly, Except.ok ()) ∧
      m.readOnly.hasAttr ATTR_READ = true ∧
      m.readOnly.hasAttr ATTR_WRITE = false ∧
      m.readOnly.hasAttr ATTR_EXECUTABLE = false) ∧
    (m.sizePages = pages → flags &&& 0b111 = 3 →
      mprotect ms addr pages flags =
        some (replaceMapping ms m m.readWrite, Except.ok ()) ∧
      m.readWrite.hasAttr ATTR_READ = true ∧
      m.readWrite.hasAttr ATTR_WRITE = true ∧
      m.readWrite.hasAttr ATTR_EXECUTABLE = false) ∧
    (m.sizePages = pages → flags &&& 0b111 = 5 →
      mprotect ms addr pages flags = none) ∧
    (m.sizePages = pages → flags &&& 0b111 ≠ 1 → flags &&& 0b111 ≠ 3 →
      flags &&& 0b111 ≠ 5 →
      mprotect ms addr pages flags =
        some (ms, Except.error SyscallErr.invalidFlags)) := by
  refine ⟨?_, ?_, ?_, ?_, ?_⟩
  · intro hne
    rw [mprotect, hfind]
    dsimp only
    rw [if_pos hne]
  · intro hsz hf
    refine ⟨?_, ?_, ?_, ?_⟩
    · rw [mprotect, hfind]
      dsimp only
      rw [if_neg (by omega), protectionTryFrom, hf]
    · simp only [Mapping.hasAttr, Mapping.readOnly, attrInsert, attrRemove,
        ATTR_EX, ATTR_WRITE, ATTR_READ, ATTR_EXECUTABLE, bne_iff_ne]
      rw [Nat.and_distrib_right, Nat.and_assoc]
      show m.attr &&& 0 ||| 1 ≠ 0
      simp
    · simp only [Mapping.hasAttr, Mapping.readOnly, attrInsert, attrRemove,
        ATTR_EX, ATTR_WRITE, ATTR_READ, ATTR_EXECUTABLE, bne_eq_false_iff_eq]
      rw [Nat.and_distrib_right, Nat.and_assoc]
      show m.attr &&& 0 ||| 0 = 0
      simp
    · simp only [Mapping.hasAttr, Mapping.readOnly, attrInsert, attrRemove,
        ATTR_EX, ATTR_WRITE, ATTR_READ, ATTR_EXECUTABLE, bne_eq_false_iff_eq]
      rw [Nat.and_distrib_right, Nat.and_assoc]
      show m.attr &&& 0 ||| 0 = 0
      simp
  · intro hsz hf
    refine ⟨?_, ?_, ?_, ?_⟩
    · rw [mprotect, hfind]
      dsimp only
      rw [if_neg (by omega), protectionTryFrom, hf]
    · simp only [Mapping.hasAttr, Mapping.readWrite, attrInsert, attrRemove,
        ATTR_EX, ATTR_RW, ATTR_WRITE, ATTR_READ, ATTR_EXECUTABLE, bne_iff_ne]
      rw [Nat.and_distrib_right, Nat.and_assoc]
      show m.attr &&& 0 ||| 1 ≠ 0
      simp
    · simp only [Mapping.hasAttr, Mapping.readWrite, attrInsert, attrRemove,
        ATTR_EX, ATTR_RW, ATTR_WRITE, ATTR_READ, ATTR_EXECUTABLE, bne_iff_ne]
      rw [Nat.and_distrib_right]
      exact lor_ne_zero_right _ _ (by decide)
    · simp only [Mapping.hasAttr, Mapping.readWrite, attrInsert, attrRemove,
        ATTR_EX, ATTR_RW, ATTR_WRITE, ATTR_READ, ATTR_EXECUTABLE,
        bne_eq_false_iff_eq]
      rw [Nat.and_distrib_right, Nat.and_assoc]
      show m.attr &&& 0 ||| 0 = 0
      simp
  · intro hsz hf
    rw [mprotect, hfind]
    dsimp only
    rw [if_neg (by omega), protectionTryFrom, hf]
  · intro hsz h1 h3 h5
    rw [mprotect, hfind]
    dsimp only
    rw [if_neg (by omega), protectionTryFrom]
    have hle : flags &&& 0b111 ≤ 7 := Nat.and_le_right
    interval_cases h : (flags &&& 0b111) <;> first | rfl | omega

theorem mprotect_spec_witness :
    (mprotect [c7m] 0x2100 2 3 =
      some (replaceMapping [c7m] c7m c7m.readWrite, Except.ok ()) ∧
     c7m.readWrite.hasAttr ATTR_WRITE = true) ∧
    mprotect [c7m] 0x2100 2 1 =
      some (replaceMapping [c7m] c7m c7m.readOnly, Except.ok ()) := by
  have h3 := mprotect_spec [c7m] c7m 0x2100 2 3 (by decide)
  have h1 := mprotect_spec [c7m] c7m 0x2100 2 1 (by decide)
  exact ⟨⟨(h3.2.2.1 rfl (by decide)).1, (h3.2.2.1 rfl (by decide)).2.2.1⟩,
    (h1.2.1 rfl (by decide)).1⟩

theorem mprotect_executable_panics :
    mprotect [c7m] 0x2100 2 5 = none := by
  decide

end KernelModel
